import Mathlib

/-!
Verification of the codec and channel-modeling core of the
information-theory-and-coding repository.

The Python sources are shallowly embedded: byte strings become `List ℕ`
(values below 256), text bit strings become `List Char`, probabilities
become `ℚ`, and fallible code returns `Except String`.
-/

/- ------------------------------------------------------------------ -/
/- Repetition channel coder (`ori/new_src/coding.py`, `decoding.py`)  -/
/- ------------------------------------------------------------------ -/

/-- One group decision inside `majority_vote_decode`
(`ori/new_src/decoding.py`): count the `'0'` and `'1'` characters of the
group; emit the majority character, `'0'` on an exact tie. -/
def majorityGroup (g : List Char) : Char :=
  if g.count '0' > g.count '1' then '0'
  else if g.count '1' > g.count '0' then '1'
  else '0'

/-- The grouped loop of `majority_vote_decode`: walk the received
characters in consecutive groups of `n`, deciding each by `majorityGroup`. -/
def decodeGroups (n : ℕ) (bits : List Char) : List Char :=
  if h : bits = [] ∨ n = 0 then []
  else majorityGroup (bits.take n) :: decodeGroups n (bits.drop n)
termination_by bits.length
decreasing_by
  push_neg at h
  simp only [List.length_drop]
  have : bits.length ≠ 0 := fun hh => h.1 (List.eq_nil_of_length_eq_zero hh)
  omega

/-- `majority_vote_decode` from `ori/new_src/decoding.py`: an empty input
raises `ValueError`; `n = 0` would raise `ZeroDivisionError` at
`len(encoded_bits) % n`; otherwise the input is truncated to the nearest
lower multiple of `n` and each group of `n` is decoded by majority vote. -/
def majority_vote_decode (encoded_bits : List Char) (n : ℕ) :
    Except String (List Char) :=
  if encoded_bits = [] then .error "ValueError: empty bit string"
  else if n = 0 then .error "ZeroDivisionError"
  else
    let truncated :=
      if encoded_bits.length % n ≠ 0 then
        encoded_bits.take (encoded_bits.length / n * n)
      else encoded_bits
    .ok (decodeGroups n truncated)

/-- `RepetitionCodeEncoder.validate_bit_string` from `ori/new_src/coding.py`:
a non-empty string all of whose characters are `'0'` or `'1'`. -/
def validate_bit_string (bit_string : List Char) : Bool :=
  !bit_string.isEmpty && bit_string.all (fun c => c == '0' || c == '1')

/-- `RepetitionCodeEncoder.encode_bit_string` (N = 3) from
`ori/new_src/coding.py`: repeat each character three times; invalid input
raises `ValueError`. -/
def encode_bit_string (bit_string : List Char) : Except String (List Char) :=
  if validate_bit_string bit_string then
    .ok (bit_string.flatMap (fun bit => List.replicate 3 bit))
  else .error "ValueError: not a binary bit string"

/-- Spec-side grouping for claim C5: cut a character list into
non-overlapping groups of exactly three, dropping any shorter remainder. -/
def chunks3 : List Char → List (List Char)
  | a :: b :: c :: rest => [a, b, c] :: chunks3 rest
  | _ => []

/-- Spec-side group decision for claim C5, exactly as the claim words it:
`'1'` iff the group has more `'1'` than `'0'` characters, `'0'` iff more
`'0'` than `'1'`, and `'0'` on an exact tie. -/
def majoritySpecGroup (g : List Char) : Char :=
  if g.count '1' > g.count '0' then '1'
  else if g.count '0' > g.count '1' then '0'
  else '0'

/-- Spec-side majority decoder for claim C5: truncate to the nearest lower
multiple of three, then decide each group of three. -/
def majoritySpec (s : List Char) : List Char :=
  (chunks3 (s.take (3 * (s.length / 3)))).map majoritySpecGroup

/- Helper lemmas about the repetition decoder. -/

theorem majorityGroup_eq_spec (g : List Char) :
    majorityGroup g = majoritySpecGroup g := by
  unfold majorityGroup majoritySpecGroup
  rcases lt_trichotomy (g.count '0') (g.count '1') with h | h | h
  · rw [if_neg (by omega), if_pos h, if_pos h]
  · rw [if_neg (by omega), if_neg (by omega), if_neg (by omega), if_neg (by omega)]
  · rw [if_pos h, if_neg (by omega), if_pos h]

theorem decodeGroups_nil (n : ℕ) : decodeGroups n [] = [] := by
  rw [decodeGroups]
  simp

theorem decodeGroups_cons3 (a b c : Char) (rest : List Char) :
    decodeGroups 3 (a :: b :: c :: rest)
      = majorityGroup [a, b, c] :: decodeGroups 3 rest := by
  rw [decodeGroups]
  simp [List.take, List.drop]

theorem decodeGroups_eq_chunks :
    ∀ (k : ℕ) (l : List Char), l.length = 3 * k →
      decodeGroups 3 l = (chunks3 l).map majorityGroup := by
  intro k
  induction k with
  | zero =>
      intro l hl
      have hnil : l = [] := List.eq_nil_of_length_eq_zero (by omega)
      subst hnil
      simp [decodeGroups_nil, chunks3]
  | succ k ih =>
      intro l hl
      match l with
      | [] => simp at hl
      | [a] => simp at hl; omega
      | [a, b] => simp at hl; omega
      | a :: b :: c :: rest =>
          rw [decodeGroups_cons3,
              show chunks3 (a :: b :: c :: rest) = [a, b, c] :: chunks3 rest from rfl,
              List.map_cons, ih rest (by simp at hl; omega)]

theorem chunks3_length :
    ∀ (k : ℕ) (l : List Char), l.length = 3 * k → (chunks3 l).length = k := by
  intro k
  induction k with
  | zero =>
      intro l hl
      have hnil : l = [] := List.eq_nil_of_length_eq_zero (by omega)
      subst hnil
      simp [chunks3]
  | succ k ih =>
      intro l hl
      match l with
      | [] => simp at hl
      | [a] => simp at hl; omega
      | [a, b] => simp at hl; omega
      | a :: b :: c :: rest =>
          rw [show chunks3 (a :: b :: c :: rest) = [a, b, c] :: chunks3 rest from rfl]
          simp only [List.length_cons, ih rest (by simp at hl; omega)]

theorem majorityGroup_binary (g : List Char) :
    majorityGroup g = '0' ∨ majorityGroup g = '1' := by
  unfold majorityGroup
  split
  · left; rfl
  · split
    · right; rfl
    · left; rfl

theorem decodeGroups_triple (s : List Char) (hbin : ∀ c ∈ s, c = '0' ∨ c = '1') :
    decodeGroups 3 (s.flatMap (fun bit => List.replicate 3 bit)) = s := by
  induction s with
  | nil => simp [decodeGroups_nil]
  | cons c rest ih =>
      have hmaj : majorityGroup [c, c, c] = c := by
        rcases hbin c (by simp) with h | h <;> subst h <;> decide
      rw [show (c :: rest).flatMap (fun bit => List.replicate 3 bit)
            = c :: c :: c :: rest.flatMap (fun bit => List.replicate 3 bit) from rfl]
      rw [decodeGroups_cons3, hmaj, ih (fun x hx => hbin x (by simp [hx]))]

/-- Claim C4 (round-trip of the repetition code under zero noise): for every
non-empty binary character string `s`, encoding by three-fold repetition and
decoding by majority vote recovers `s` exactly. -/
theorem repetition_roundtrip (s : List Char) (hne : s ≠ [])
    (hbin : ∀ c ∈ s, c = '0' ∨ c = '1') :
    ∃ enc, encode_bit_string s = .ok enc ∧
      majority_vote_decode enc 3 = .ok s := by
  have hval : validate_bit_string s = true := by
    unfold validate_bit_string
    have h1 : s.isEmpty = false := by
      cases s with
      | nil => exact absurd rfl hne
      | cons a t => rfl
    rw [h1]
    simp only [Bool.not_false, Bool.true_and, List.all_eq_true]
    intro c hc
    rcases hbin c hc with h | h <;> subst h <;> decide
  have hlen : (s.flatMap (fun bit => List.replicate 3 bit)).length = 3 * s.length := by
    clear hval hne hbin
    induction s with
    | nil => rfl
    | cons a t ih =>
        rw [show (a :: t).flatMap (fun bit => List.replicate 3 bit)
              = a :: a :: a :: t.flatMap (fun bit => List.replicate 3 bit) from rfl]
        simp only [List.length_cons, ih]
        ring
  refine ⟨s.flatMap (fun bit => List.replicate 3 bit), ?_, ?_⟩
  · unfold encode_bit_string
    rw [hval]
    simp
  · have henc_ne : s.flatMap (fun bit => List.replicate 3 bit) ≠ [] := by
      intro hcontra
      have hl := congrArg List.length hcontra
      rw [hlen] at hl
      simp only [List.length_nil] at hl
      have hz : s.length = 0 := by omega
      exact hne (List.eq_nil_of_length_eq_zero hz)
    unfold majority_vote_decode
    rw [if_neg henc_ne, if_neg (by omega)]
    have hmod : (s.flatMap (fun bit => List.replicate 3 bit)).length % 3 = 0 := by
      rw [hlen]; omega
    simp only [hmod, ne_eq, not_true_eq_false, if_false, ite_false]
    rw [decodeGroups_triple s hbin]

/-- Concrete instantiation of `repetition_roundtrip` at `s = "101"`. -/
theorem repetition_roundtrip_witness :
    ['1', '0', '1'] ≠ ([] : List Char) ∧
    (∀ c ∈ ['1', '0', '1'], c = '0' ∨ c = '1') ∧
    ∃ enc, encode_bit_string ['1', '0', '1'] = .ok enc ∧
      majority_vote_decode enc 3 = .ok ['1', '0', '1'] :=
  ⟨by decide, by decide, repetition_roundtrip ['1', '0', '1'] (by decide) (by decide)⟩

theorem majority_vote_decode_spec_aux (s : List Char) (hne : s ≠ []) :
    majority_vote_decode s 3 = .ok (majoritySpec s) := by
  unfold majority_vote_decode majoritySpec
  rw [if_neg hne, if_neg (by omega)]
  have htrunc :
      (if s.length % 3 ≠ 0 then s.take (s.length / 3 * 3) else s)
        = s.take (3 * (s.length / 3)) := by
    by_cases h : s.length % 3 = 0
    · simp only [h, ne_eq, not_true_eq_false, if_false, ite_false]
      rw [show 3 * (s.length / 3) = s.length from by omega, List.take_length]
    · simp only [h, ne_eq, not_false_eq_true, if_true, ite_true, Nat.mul_comm]
  simp only [htrunc]
  have hlen : (s.take (3 * (s.length / 3))).length = 3 * (s.length / 3) := by
    rw [List.length_take]
    omega
  rw [decodeGroups_eq_chunks (s.length / 3) _ hlen]
  congr 1
  exact List.map_congr_left (fun g _ => majorityGroup_eq_spec g)

/-- Claim C5 (behaviour of `majority_vote_decode` at `n = 3`): on a non-empty
binary string the decoder truncates the input to the nearest lower multiple
of three, processes it in non-overlapping groups of three, and emits `'1'`
for a group iff it has more `'1'` than `'0'` characters, `'0'` iff more
`'0'` than `'1'`, and `'0'` on an exact tie — exactly `majoritySpec`. -/
theorem majority_vote_decode_spec (s : List Char) (hne : s ≠ [])
    (hbin : ∀ c ∈ s, c = '0' ∨ c = '1') :
    majority_vote_decode s 3 = .ok (majoritySpec s) :=
  majority_vote_decode_spec_aux s hne

/-- Concrete instantiation of `majority_vote_decode_spec` at `s = "11010"`. -/
theorem majority_vote_decode_spec_witness :
    ['1', '1', '0', '1', '0'] ≠ ([] : List Char) ∧
    (∀ c ∈ ['1', '1', '0', '1', '0'], c = '0' ∨ c = '1') ∧
    majority_vote_decode ['1', '1', '0', '1', '0'] 3
      = .ok (majoritySpec ['1', '1', '0', '1', '0']) :=
  ⟨by decide, by decide,
    majority_vote_decode_spec ['1', '1', '0', '1', '0'] (by decide) (by decide)⟩

/-- Claim C10 (shape of the majority decoder's output): on a non-empty binary
string of length `L`, `majority_vote_decode · 3` succeeds and returns exactly
`⌊L / 3⌋` characters, each of which is `'0'` or `'1'`. -/
theorem majority_vote_decode_shape (s : List Char) (hne : s ≠ [])
    (hbin : ∀ c ∈ s, c = '0' ∨ c = '1') :
    ∃ out, majority_vote_decode s 3 = .ok out ∧
      out.length = s.length / 3 ∧ ∀ c ∈ out, c = '0' ∨ c = '1' := by
  refine ⟨majoritySpec s, majority_vote_decode_spec_aux s hne, ?_, ?_⟩
  · unfold majoritySpec
    rw [List.length_map]
    apply chunks3_length
    rw [List.length_take]
    omega
  · intro c hc
    unfold majoritySpec at hc
    rw [List.mem_map] at hc
    obtain ⟨g, _, rfl⟩ := hc
    rw [← majorityGroup_eq_spec]
    exact majorityGroup_binary g

/-- Concrete instantiation of `majority_vote_decode_shape` at `s = "1101"`. -/
theorem majority_vote_decode_shape_witness :
    ['1', '1', '0', '1'] ≠ ([] : List Char) ∧
    (∀ c ∈ ['1', '1', '0', '1'], c = '0' ∨ c = '1') ∧
    ∃ out, majority_vote_decode ['1', '1', '0', '1'] 3 = .ok out ∧
      out.length = ['1', '1', '0', '1'].length / 3 ∧
      ∀ c ∈ out, c = '0' ∨ c = '1' :=
  ⟨by decide, by decide,
    majority_vote_decode_shape ['1', '1', '0', '1'] (by decide) (by decide)⟩

/- ------------------------------------------------------------------ -/
/- Discrete source sampler and BSC noise path                         -/
/- (`ori/new_src/byteSource.py`, `ori/new_src/channel.py`)            -/
/- ------------------------------------------------------------------ -/

/-- Running cumulative sums starting from accumulator `acc`
(the recursion behind `np.cumsum`). -/
def cumsumFrom (acc : ℚ) : List ℚ → List ℚ
  | [] => []
  | x :: xs => (acc + x) :: cumsumFrom (acc + x) xs

/-- `np.cumsum` over a probability vector, as used by `generate_msg` in
`ori/new_src/byteSource.py` and `compute_cdf` in `ori/new_src/channel.py`. -/
def cumsum (l : List ℚ) : List ℚ := cumsumFrom 0 l

/-- `np.searchsorted(cdf, v)` with the default `side='left'` on a sorted
array: the number of entries strictly below `v`. -/
def searchsortedLeft (cdf : List ℚ) (v : ℚ) : ℕ :=
  cdf.countP (fun c => c < v)

/-- `np.searchsorted(cdf, v, side='right')` on a sorted array: the number of
entries at or below `v`. -/
def searchsortedRight (cdf : List ℚ) (v : ℚ) : ℕ :=
  cdf.countP (fun c => c ≤ v)

/-- `generate_msg` from `ori/new_src/byteSource.py`, with the uniform draws
of `np.random.uniform` made an explicit argument: map each draw through
left-sided `searchsorted` on the CDF of the symbol probabilities. -/
def generate_msg (symbol_prob : List ℚ) (draws : List ℚ) : List ℕ :=
  draws.map (searchsortedLeft (cumsum symbol_prob))

/-- `write_output` from `ori/new_src/byteSource.py`:
`np.clip(msg, 0, 255).astype(np.uint8)`; searchsorted indices are already
nonnegative, so the clip is `min · 255`. -/
def write_output (msg : List ℕ) : List ℕ :=
  msg.map (fun x => min x 255)

/-- `compute_cdf` from `ori/new_src/channel.py`. -/
def compute_cdf (p : List ℚ) : List ℚ := cumsum p

/-- `get_data` from `ori/new_src/channel.py`, with the uniform draws made an
explicit argument: `np.searchsorted(cdf, draw, side='right')` followed by
`astype(np.uint8)`, which reduces the raw index modulo 256. -/
def get_data (cdf : List ℚ) (draws : List ℚ) : List ℕ :=
  draws.map (fun v => searchsortedRight cdf v % 256)

theorem cumsumFrom_replicate_zero :
    ∀ (n : ℕ) (acc : ℚ), cumsumFrom acc (List.replicate n 0) = List.replicate n acc := by
  intro n
  induction n with
  | zero => intro acc; rfl
  | succ n ih =>
      intro acc
      rw [List.replicate_succ, show cumsumFrom acc ((0 : ℚ) :: List.replicate n 0)
            = (acc + 0) :: cumsumFrom (acc + 0) (List.replicate n 0) from rfl,
          add_zero, ih acc, List.replicate_succ]

theorem countP_replicate {α : Type} (p : α → Bool) (n : ℕ) (a : α) :
    (List.replicate n a).countP p = if p a then n else 0 := by
  induction n with
  | zero => simp
  | succ n ih =>
      rw [List.replicate_succ, List.countP_cons, ih]
      by_cases h : p a <;> simp [h]

/-- Counterexample to claim C7: in the channel noise path (`get_data`), a raw
searchsorted index of 256 — outside [0,255], arising when the draw is at or
above every CDF entry — is reduced modulo 256 to the byte 0; it is not
mapped to the nearest bound 255. -/
theorem channel_clamp_counterexample :
    searchsortedRight (compute_cdf (List.replicate 256 (0 : ℚ))) 1 = 256 ∧
    get_data (compute_cdf (List.replicate 256 (0 : ℚ))) [1] = [0] ∧
    (0 : ℕ) ≠ 255 := by
  have hcdf : compute_cdf (List.replicate 256 (0 : ℚ)) = List.replicate 256 0 := by
    unfold compute_cdf cumsum
    exact cumsumFrom_replicate_zero 256 0
  have hss : searchsortedRight (compute_cdf (List.replicate 256 (0 : ℚ))) 1 = 256 := by
    rw [hcdf]
    unfold searchsortedRight
    rw [countP_replicate]
    norm_num
  refine ⟨hss, ?_, by decide⟩
  unfold get_data
  rw [List.map_cons, List.map_nil, hss]

/-- Amended claim C7: the byte-source sampling path does clamp its output
symbols to [0,255] (`np.clip` inside `write_output`), but the channel
noise-generation path does not clamp: `get_data` reduces the raw
searchsorted index modulo 256, so the out-of-range index 256 becomes the
byte 0 rather than the nearest bound 255. -/
theorem sampler_clamp_amended :
    (∀ (prob draws : List ℚ) (x : ℕ),
        x ∈ write_output (generate_msg prob draws) → x ≤ 255) ∧
    (∀ (cdf draws : List ℚ),
        get_data cdf draws = draws.map (fun v => searchsortedRight cdf v % 256)) ∧
    get_data (compute_cdf (List.replicate 256 (0 : ℚ))) [1] = [0] := by
  have hcdf : compute_cdf (List.replicate 256 (0 : ℚ)) = List.replicate 256 0 := by
    unfold compute_cdf cumsum
    exact cumsumFrom_replicate_zero 256 0
  have hss : searchsortedRight (compute_cdf (List.replicate 256 (0 : ℚ))) 1 = 256 := by
    rw [hcdf]
    unfold searchsortedRight
    rw [countP_replicate]
    norm_num
  refine ⟨?_, fun _ _ => rfl, ?_⟩
  · intro prob draws x hx
    unfold write_output at hx
    rw [List.mem_map] at hx
    obtain ⟨y, _, rfl⟩ := hx
    exact min_le_right y 255
  · unfold get_data
    rw [List.map_cons, List.map_nil, hss]

/-- Concrete instantiation of `sampler_clamp_amended`: the clamp bound applied
to the sample drawn from the one-entry CDF `[1]` at draw `2`. -/
theorem sampler_clamp_amended_witness :
    (1 : ℕ) ∈ write_output (generate_msg [(1 : ℚ)] [(2 : ℚ)]) ∧ (1 : ℕ) ≤ 255 := by
  have hmem : (1 : ℕ) ∈ write_output (generate_msg [(1 : ℚ)] [(2 : ℚ)]) := by
    have h12 : ((1 : ℚ) < 2) = True := by norm_num
    simp [write_output, generate_msg, searchsortedLeft, cumsum, cumsumFrom,
      List.countP, List.countP.go, h12]
  exact ⟨hmem, sampler_clamp_amended.1 [(1 : ℚ)] [(2 : ℚ)] 1 hmem⟩

/- ------------------------------------------------------------------ -/
/- Information-metrics engine (`ori/new_src/channelIndexCalc.py`)     -/
/- ------------------------------------------------------------------ -/

/-- The counting loop of `calculate_channel_probabilities`
(`ori/new_src/channelIndexCalc.py`): `transition_counts[x, y]` is
incremented once per aligned pair `(x, y)` of `zip(input_data, noise_data)`;
`zip` stops at the shorter of the two sequences. -/
def transition_counts (input_data noise_data : List (Fin 256)) :
    Fin 256 → Fin 256 → ℕ :=
  fun i j => (input_data.zip noise_data).countP (fun p => p.1 == i && p.2 == j)

/-- `calculate_channel_probabilities` from `ori/new_src/channelIndexCalc.py`:
co-occurrence counts row-normalized by `np.where(row_sums > 0, counts / row_sums, 0)`:
a row whose sum is zero stays identically zero. -/
def calculate_channel_probabilities (input_data noise_data : List (Fin 256)) :
    Fin 256 → Fin 256 → ℚ :=
  fun i j =>
    if 0 < ∑ k : Fin 256, (transition_counts input_data noise_data i k : ℚ)
    then (transition_counts input_data noise_data i j : ℚ)
          / ∑ k : Fin 256, (transition_counts input_data noise_data i k : ℚ)
    else 0

theorem sum_transition_counts (input_data noise_data : List (Fin 256)) (i : Fin 256) :
    ∑ k : Fin 256, transition_counts input_data noise_data i k
      = (input_data.zip noise_data).countP (fun p => p.1 == i) := by
  unfold transition_counts
  induction input_data.zip noise_data with
  | nil => simp
  | cons a l ih =>
      simp only [List.countP_cons, Finset.sum_add_distrib, ih]
      by_cases h : a.1 = i
      · simp only [h, beq_self_eq_true, Bool.true_and, if_pos rfl]
        have : ∑ k : Fin 256, (if (a.2 == k) = true then 1 else 0)
            = ∑ k : Fin 256, (if k = a.2 then 1 else 0) := by
          apply Finset.sum_congr rfl
          intro k _
          by_cases hk : a.2 = k
          · simp [hk]
          · simp [hk, Ne.symm hk]
        rw [this, Finset.sum_ite_eq' Finset.univ a.2 (fun _ => 1)]
        simp
      · have hb : (a.1 == i) = false := by simp [h]
        simp [hb]

/-- Claim C8: every row of the 256×256 matrix returned by
`calculate_channel_probabilities` has only non-negative entries, and it sums
to 1 when its input symbol occurs among the zipped (overlapping-prefix)
pairs, while it is identically zero when that symbol never occurs. -/
theorem transition_matrix_rows (input_data noise_data : List (Fin 256)) (i : Fin 256) :
    (∀ j, 0 ≤ calculate_channel_probabilities input_data noise_data i j) ∧
    (if i ∈ (input_data.zip noise_data).map Prod.fst
     then (∑ j : Fin 256, calculate_channel_probabilities input_data noise_data i j) = 1
     else ∀ j, calculate_channel_probabilities input_data noise_data i j = 0) := by
  have hrow : (∑ k : Fin 256, (transition_counts input_data noise_data i k : ℚ))
      = ((input_data.zip noise_data).countP (fun p => p.1 == i) : ℚ) := by
    rw [← Nat.cast_sum, sum_transition_counts]
  constructor
  · intro j
    unfold calculate_channel_probabilities
    split
    · apply div_nonneg (Nat.cast_nonneg _)
      exact le_of_lt (by assumption)
    · exact le_refl 0
  · split
    · rename_i hmem
      have hpos : 0 < (input_data.zip noise_data).countP (fun p => p.1 == i) := by
        rw [List.countP_pos]
        rw [List.mem_map] at hmem
        obtain ⟨p, hp, hfst⟩ := hmem
        exact ⟨p, hp, by simp [hfst]⟩
      have hrpos : 0 < ∑ k : Fin 256, (transition_counts input_data noise_data i k : ℚ) := by
        rw [hrow]
        exact_mod_cast hpos
      unfold calculate_channel_probabilities
      simp only [if_pos hrpos]
      rw [← Finset.sum_div, div_eq_one_iff_eq (ne_of_gt hrpos)]
    · rename_i hmem
      intro j
      have hzero : (input_data.zip noise_data).countP (fun p => p.1 == i) = 0 := by
        by_contra hc
        have hpos := Nat.pos_of_ne_zero hc
        rw [List.countP_pos] at hpos
        obtain ⟨p, hp, hpi⟩ := hpos
        exact hmem (List.mem_map.mpr ⟨p, hp, by simpa using hpi⟩)
      have hrz : (∑ k : Fin 256, (transition_counts input_data noise_data i k : ℚ)) = 0 := by
        rw [hrow, hzero, Nat.cast_zero]
      unfold calculate_channel_probabilities
      simp only [hrz, lt_irrefl, if_false, ite_false]

/-- The accumulation loop of `calculate_mutual_information`
(`ori/new_src/channelIndexCalc.py`), with `np.log2` abstracted as an
arbitrary rational-valued function `log2` (floating-point logarithms have no
exact rational embedding; nothing below depends on its values): a term is
accumulated only when the joint probability is positive, both marginals are
positive, and the ratio is positive; all other terms are skipped. -/
def mutual_information_sum (log2 : ℚ → ℚ) (tp : Fin 256 → Fin 256 → ℚ) : ℚ :=
  ∑ i : Fin 256, ∑ j : Fin 256,
    if 0 < tp i j ∧ 0 < (∑ k : Fin 256, tp i k) ∧ 0 < (∑ k : Fin 256, tp k j) ∧
       0 < tp i j / ((∑ k : Fin 256, tp i k) * (∑ k : Fin 256, tp k j))
    then tp i j * log2 (tp i j / ((∑ k : Fin 256, tp i k) * (∑ k : Fin 256, tp k j)))
    else 0

/-- `calculate_mutual_information` from `ori/new_src/channelIndexCalc.py`:
the accumulated sum, with a negative accumulated value clamped to 0 before
being returned. -/
def calculate_mutual_information (log2 : ℚ → ℚ) (tp : Fin 256 → Fin 256 → ℚ) : ℚ :=
  if mutual_information_sum log2 tp < 0 then 0 else mutual_information_sum log2 tp

/-- Claim C9: for every 256×256 non-negative transition matrix,
`calculate_mutual_information` returns a non-negative value; zero-probability
terms are skipped inside `mutual_information_sum`, and a negative accumulated
sum is clamped to 0 before being returned. -/
theorem mutual_information_nonneg (log2 : ℚ → ℚ) (tp : Fin 256 → Fin 256 → ℚ)
    (hnn : ∀ i j, 0 ≤ tp i j) :
    0 ≤ calculate_mutual_information log2 tp ∧
    (mutual_information_sum log2 tp < 0 → calculate_mutual_information log2 tp = 0) := by
  unfold calculate_mutual_information
  constructor
  · split
    · exact le_refl 0
    · rename_i hge
      exact not_lt.mp hge
  · intro h
    rw [if_pos h]

/-- Concrete instantiation of `mutual_information_nonneg` at the all-zero
matrix with the constantly `-1` stand-in for `log2`. -/
theorem mutual_information_nonneg_witness :
    (∀ i j : Fin 256, (0 : ℚ) ≤ (fun (_ : Fin 256) (_ : Fin 256) => (0 : ℚ)) i j) ∧
    0 ≤ calculate_mutual_information (fun _ => -1)
      (fun (_ : Fin 256) (_ : Fin 256) => (0 : ℚ)) :=
  ⟨fun _ _ => le_refl 0,
    (mutual_information_nonneg (fun _ => -1) (fun _ _ => 0) (fun _ _ => le_refl 0)).1⟩

/- ------------------------------------------------------------------ -/
/- Bit and byte utilities shared by the static Huffman source coder   -/
/- (`src/source_encoder.py`, `src/source_decoder.py`)                 -/
/- ------------------------------------------------------------------ -/

/-- Big-endian bit expansion of width `n`: the `n` low bits of `v`, most
significant first — the wire form of a Huffman code `(bits, value)`. -/
def natBitsBE : ℕ → ℕ → List Bool
  | 0, _ => []
  | n + 1, v => natBitsBE n (v / 2) ++ [v % 2 == 1]

/-- The number denoted by a big-endian bit list (the decoder's running
`buffer = buffer * 2 + bit`). -/
def bitsVal (l : List Bool) : ℕ :=
  l.foldl (fun acc b => 2 * acc + (if b then 1 else 0)) 0

theorem natBitsBE_length (n v : ℕ) : (natBitsBE n v).length = n := by
  induction n generalizing v with
  | zero => rfl
  | succ n ih => simp [natBitsBE, ih]

theorem bitsVal_cons_general (l : List Bool) (acc : ℕ) :
    l.foldl (fun acc b => 2 * acc + (if b then 1 else 0)) acc
      = acc * 2 ^ l.length + bitsVal l := by
  induction l generalizing acc with
  | nil => simp [bitsVal]
  | cons b l ih =>
      unfold bitsVal
      simp only [List.foldl_cons, List.length_cons, ih]
      ring

theorem bitsVal_append (l1 l2 : List Bool) :
    bitsVal (l1 ++ l2) = bitsVal l1 * 2 ^ l2.length + bitsVal l2 := by
  unfold bitsVal
  rw [List.foldl_append]
  exact bitsVal_cons_general l2 _

theorem bitsVal_lt (l : List Bool) : bitsVal l < 2 ^ l.length := by
  induction l using List.reverseRecOn with
  | nil => simp [bitsVal]
  | append_singleton l b ih =>
      rw [bitsVal_append]
      have hb : bitsVal [b] < 2 := by cases b <;> decide
      simp only [List.length_append, List.length_cons, List.length_nil, pow_add, pow_one,
        zero_add]
      linarith [ih, hb]

theorem bitsVal_natBitsBE (n v : ℕ) (h : v < 2 ^ n) :
    bitsVal (natBitsBE n v) = v := by
  induction n generalizing v with
  | zero =>
      have : v = 0 := by simpa using h
      subst this
      rfl
  | succ n ih =>
      unfold natBitsBE
      rw [bitsVal_append]
      have hdiv : v / 2 < 2 ^ n := by
        rw [pow_succ] at h
        omega
      rw [ih (v / 2) hdiv]
      have : bitsVal [v % 2 == 1] = v % 2 := by
        unfold bitsVal
        simp only [List.foldl_cons, List.foldl_nil]
        by_cases h2 : v % 2 = 1
        · simp [h2]
        · have : v % 2 = 0 := by omega
          simp [this]
      simp only [List.length_cons, List.length_nil, this, pow_one]
      omega

theorem natBitsBE_bitsVal (l : List Bool) : natBitsBE l.length (bitsVal l) = l := by
  induction l using List.reverseRecOn with
  | nil => rfl
  | append_singleton l b ih =>
      have hlen : (l ++ [b]).length = l.length + 1 := by simp
      rw [hlen, bitsVal_append]
      have hlen1 : ([b] : List Bool).length = 1 := rfl
      rw [hlen1, pow_one]
      show natBitsBE l.length ((bitsVal l * 2 + bitsVal [b]) / 2)
            ++ [(bitsVal l * 2 + bitsVal [b]) % 2 == 1] = l ++ [b]
      have hlt2 : bitsVal [b] < 2 := by cases b <;> decide
      have hdiv : (bitsVal l * 2 + bitsVal [b]) / 2 = bitsVal l := by omega
      have hmod : (bitsVal l * 2 + bitsVal [b]) % 2 = bitsVal [b] := by omega
      rw [hdiv, hmod, ih]
      congr 1
      cases b <;> rfl

theorem natBitsBE_false_cons (n v : ℕ) (h : v < 2 ^ n) :
    natBitsBE (n + 1) v = false :: natBitsBE n v := by
  induction n generalizing v with
  | zero =>
      have : v = 0 := by simpa using h
      subst this
      rfl
  | succ n ih =>
      have hdiv : v / 2 < 2 ^ n := by rw [pow_succ] at h; omega
      show natBitsBE (n + 1) (v / 2) ++ [v % 2 == 1]
          = false :: (natBitsBE n (v / 2) ++ [v % 2 == 1])
      rw [ih (v / 2) hdiv]
      rfl

theorem natBitsBE_true_cons (n v : ℕ) (h : v < 2 ^ n) :
    natBitsBE (n + 1) (v + 2 ^ n) = true :: natBitsBE n v := by
  induction n generalizing v with
  | zero =>
      have : v = 0 := by simpa using h
      subst this
      rfl
  | succ n ih =>
      have hdiv : v / 2 < 2 ^ n := by rw [pow_succ] at h; omega
      have hd2 : (v + 2 ^ (n + 1)) / 2 = v / 2 + 2 ^ n := by
        rw [pow_succ]
        omega
      have hm2 : (v + 2 ^ (n + 1)) % 2 = v % 2 := by
        rw [pow_succ]
        omega
      show natBitsBE (n + 1) ((v + 2 ^ (n + 1)) / 2) ++ [(v + 2 ^ (n + 1)) % 2 == 1]
          = true :: (natBitsBE n (v / 2) ++ [v % 2 == 1])
      rw [hd2, hm2, ih (v / 2) hdiv]
      rfl

/-- `int.to_bytes(k, 'little')` for a value below `256^k`: `k` bytes, least
significant first. -/
def leBytes : ℕ → ℕ → List ℕ
  | 0, _ => []
  | k + 1, x => (x % 256) :: leBytes k (x / 256)

/-- `int.from_bytes(·, 'little')`. -/
def fromLE (l : List ℕ) : ℕ :=
  l.foldr (fun b acc => acc * 256 + b) 0

theorem leBytes_length (k x : ℕ) : (leBytes k x).length = k := by
  induction k generalizing x with
  | zero => rfl
  | succ k ih => simp [leBytes, ih]

theorem fromLE_leBytes (k x : ℕ) (h : x < 256 ^ k) : fromLE (leBytes k x) = x := by
  induction k generalizing x with
  | zero =>
      have : x = 0 := by simpa using h
      subst this
      rfl
  | succ k ih =>
      have hdiv : x / 256 < 256 ^ k := by
        rw [pow_succ] at h
        omega
      show fromLE (leBytes k (x / 256)) * 256 + x % 256 = x
      rw [ih (x / 256) hdiv]
      omega

theorem leBytes_mem_lt (k x : ℕ) : ∀ b ∈ leBytes k x, b < 256 := by
  induction k generalizing x with
  | zero => intro b hb; simp [leBytes] at hb
  | succ k ih =>
      intro b hb
      rw [show leBytes (k + 1) x = (x % 256) :: leBytes k (x / 256) from rfl] at hb
      rcases List.mem_cons.mp hb with h | h
      · omega
      · exact ih (x / 256) b h

/-- Pack an exact multiple of eight bits into bytes, most significant bit
first within each byte (the `dahuffman` bit-packing order). -/
def packExact : List Bool → List ℕ
  | b0 :: b1 :: b2 :: b3 :: b4 :: b5 :: b6 :: b7 :: rest =>
      bitsVal [b0, b1, b2, b3, b4, b5, b6, b7] :: packExact rest
  | _ => []

/-- The encoder's end-of-stream flush: pad the bitstream with zero bits up
to a byte boundary, then pack eight bits per byte, most significant first. -/
def packBits (bits : List Bool) : List ℕ :=
  packExact (bits ++ List.replicate ((8 - bits.length % 8) % 8) false)

/-- Unpack bytes into bits, most significant bit of each byte first (the
decoder's walk over the bit masks `128, 64, …, 1`). -/
def unpackBytes (bytes : List ℕ) : List Bool :=
  bytes.flatMap (natBitsBE 8)

theorem unpack_packExact :
    ∀ (n : ℕ) (l : List Bool), l.length = 8 * n → unpackBytes (packExact l) = l := by
  intro n
  induction n with
  | zero =>
      intro l hl
      have hnil : l = [] := List.eq_nil_of_length_eq_zero (by omega)
      subst hnil
      rfl
  | succ n ih =>
      intro l hl
      rcases l with _ | ⟨b0, l⟩; · simp at hl
      rcases l with _ | ⟨b1, l⟩; · simp at hl; omega
      rcases l with _ | ⟨b2, l⟩; · simp at hl; omega
      rcases l with _ | ⟨b3, l⟩; · simp at hl; omega
      rcases l with _ | ⟨b4, l⟩; · simp at hl; omega
      rcases l with _ | ⟨b5, l⟩; · simp at hl; omega
      rcases l with _ | ⟨b6, l⟩; · simp at hl; omega
      rcases l with _ | ⟨b7, l⟩; · simp at hl; omega
      rw [show packExact (b0 :: b1 :: b2 :: b3 :: b4 :: b5 :: b6 :: b7 :: l)
            = bitsVal [b0, b1, b2, b3, b4, b5, b6, b7] :: packExact l from rfl]
      rw [show unpackBytes (bitsVal [b0, b1, b2, b3, b4, b5, b6, b7] :: packExact l)
            = natBitsBE 8 (bitsVal [b0, b1, b2, b3, b4, b5, b6, b7]) ++ unpackBytes (packExact l)
          from rfl]
      have h8 : ([b0, b1, b2, b3, b4, b5, b6, b7] : List Bool).length = 8 := rfl
      rw [show natBitsBE 8 (bitsVal [b0, b1, b2, b3, b4, b5, b6, b7])
            = natBitsBE ([b0, b1, b2, b3, b4, b5, b6, b7] : List Bool).length
                (bitsVal [b0, b1, b2, b3, b4, b5, b6, b7]) from rfl,
          natBitsBE_bitsVal, ih l (by simp at hl; omega)]
      rfl

theorem unpack_packBits (bits : List Bool) :
    unpackBytes (packBits bits)
      = bits ++ List.replicate ((8 - bits.length % 8) % 8) false := by
  unfold packBits
  apply unpack_packExact ((bits.length + (8 - bits.length % 8) % 8) / 8)
  rw [List.length_append, List.length_replicate]
  omega

theorem packExact_length :
    ∀ (n : ℕ) (l : List Bool), l.length = 8 * n → (packExact l).length = n := by
  intro n
  induction n with
  | zero =>
      intro l hl
      have hnil : l = [] := List.eq_nil_of_length_eq_zero (by omega)
      subst hnil
      rfl
  | succ n ih =>
      intro l hl
      rcases l with _ | ⟨b0, l⟩; · simp at hl
      rcases l with _ | ⟨b1, l⟩; · simp at hl; omega
      rcases l with _ | ⟨b2, l⟩; · simp at hl; omega
      rcases l with _ | ⟨b3, l⟩; · simp at hl; omega
      rcases l with _ | ⟨b4, l⟩; · simp at hl; omega
      rcases l with _ | ⟨b5, l⟩; · simp at hl; omega
      rcases l with _ | ⟨b6, l⟩; · simp at hl; omega
      rcases l with _ | ⟨b7, l⟩; · simp at hl; omega
      rw [show packExact (b0 :: b1 :: b2 :: b3 :: b4 :: b5 :: b6 :: b7 :: l)
            = bitsVal [b0, b1, b2, b3, b4, b5, b6, b7] :: packExact l from rfl]
      simp only [List.length_cons, ih l (by simp at hl; omega)]

theorem packBits_length (bits : List Bool) :
    (packBits bits).length = (bits.length + 7) / 8 := by
  unfold packBits
  rw [packExact_length ((bits.length + (8 - bits.length % 8) % 8) / 8)]
  · omega
  · rw [List.length_append, List.length_replicate]
    omega

theorem packExact_short (l : List Bool) (h : l.length < 8) : packExact l = [] := by
  match l, h with
  | [], _ => rfl
  | [a0], _ => rfl
  | [a0, a1], _ => rfl
  | [a0, a1, a2], _ => rfl
  | [a0, a1, a2, a3], _ => rfl
  | [a0, a1, a2, a3, a4], _ => rfl
  | [a0, a1, a2, a3, a4, a5], _ => rfl
  | [a0, a1, a2, a3, a4, a5, a6], _ => rfl
  | a0 :: a1 :: a2 :: a3 :: a4 :: a5 :: a6 :: a7 :: rest, h =>
      exact absurd h (by simp only [List.length_cons]; omega)

theorem packExact_mem_lt :
    ∀ (n : ℕ) (l : List Bool), l.length ≤ n → ∀ b ∈ packExact l, b < 256 := by
  intro n
  induction n with
  | zero =>
      intro l hl b hb
      have hnil : l = [] := List.eq_nil_of_length_eq_zero (by omega)
      subst hnil
      rw [show packExact [] = [] from rfl] at hb
      simp at hb
  | succ n ih =>
      intro l hl b hb
      by_cases h8 : l.length < 8
      · rw [packExact_short l h8] at hb
        simp at hb
      · rcases l with _ | ⟨b0, l⟩; · simp at h8
        rcases l with _ | ⟨b1, l⟩; · simp at h8
        rcases l with _ | ⟨b2, l⟩; · simp at h8
        rcases l with _ | ⟨b3, l⟩; · simp at h8
        rcases l with _ | ⟨b4, l⟩; · simp at h8
        rcases l with _ | ⟨b5, l⟩; · simp at h8
        rcases l with _ | ⟨b6, l⟩; · simp at h8
        rcases l with _ | ⟨b7, l⟩; · simp at h8
        rw [show packExact (b0 :: b1 :: b2 :: b3 :: b4 :: b5 :: b6 :: b7 :: l)
              = bitsVal [b0, b1, b2, b3, b4, b5, b6, b7] :: packExact l from rfl] at hb
        rcases List.mem_cons.mp hb with h | h
        · subst h
          have hlt := bitsVal_lt [b0, b1, b2, b3, b4, b5, b6, b7]
          norm_num at hlt
          exact hlt
        · refine ih l ?_ b h
          simp only [List.length_cons] at hl
          omega

/- ------------------------------------------------------------------ -/
/- The Huffman code-table construction of `dahuffman_no_EOF`          -/
/- ------------------------------------------------------------------ -/

/-- A code-table entry `(symbol, bits, value)`: a symbol with its code
bit-length and code value. -/
abbrev CodeEntry : Type := ℕ × ℕ × ℕ

/-- A worklist node of the Huffman construction: a total weight together
with the partial codes of the symbols below that node. -/
abbrev HuffGroup : Type := ℚ × List CodeEntry

/-- Modelled from the spec: the `dahuffman_no_EOF` module is imported by
`src/source_encoder.py` and `src/source_decoder.py` but is not part of the
repository sources.  §4.2 describes its table construction as the standard
entropy-coding tree construction — "repeatedly merge the two
lowest-probability/frequency nodes into a parent, assign 0/1 on each
branch, bit-length = tree depth".  Merging prefixes the codes of the first
(lower-weight) group with bit 0 and those of the second with bit 1, i.e. a
new most significant bit at position `bits`. -/
def mergeGrp (g1 g2 : HuffGroup) : HuffGroup :=
  (g1.1 + g2.1,
    g1.2.map (fun e => (e.1, e.2.1 + 1, e.2.2)) ++
    g2.2.map (fun e => (e.1, e.2.1 + 1, e.2.2 + 2 ^ e.2.1)))

/-- Keep the worklist sorted by ascending weight: insert after existing
groups of equal weight (stable insertion). -/
def insertGrp (x : HuffGroup) : List HuffGroup → List HuffGroup
  | [] => [x]
  | y :: ys => if x.1 < y.1 then x :: y :: ys else y :: insertGrp x ys

/-- Stable insertion sort of the initial worklist by ascending weight, so
that the head groups are the two lowest-weight ones. -/
def sortGrps : List HuffGroup → List HuffGroup
  | [] => []
  | x :: xs => insertGrp x (sortGrps xs)

/-- The merge loop: repeatedly pop the two lowest-weight groups and insert
their merge, until one group remains.  The fuel (instantiated with the
group count) only forces termination; it is never exhausted. -/
def huffLoop : ℕ → List HuffGroup → List HuffGroup
  | _, [] => []
  | _, [g] => [g]
  | 0, l => l
  | fuel + 1, g1 :: g2 :: rest => huffLoop fuel (insertGrp (mergeGrp g1 g2) rest)

/-- Modelled from the spec: `HuffmanCodec.from_frequencies` builds the code
table symbol → (bit-length, code value) by the merge loop, starting from a
single-symbol group with code `(0, 0)` per frequency entry (so a degenerate
one-symbol source yields the single code `(0, 0)`). -/
def from_frequencies (freq : List (ℕ × ℚ)) : List CodeEntry :=
  match huffLoop freq.length (sortGrps (freq.map (fun sp => (sp.2, [(sp.1, 0, 0)])))) with
  | [g] => g.2
  | _ => []

/-- The transmitted bit string of a code-table entry. -/
def codeBits (e : CodeEntry) : List Bool := natBitsBE e.2.1 e.2.2

/-- Structural invariant of a group's entry list: non-empty, every code
value fits its bit-length, every bit-length is below the entry count, and
no entry's bit string is a prefix of another's. -/
def GrpInv (g : List CodeEntry) : Prop :=
  g ≠ [] ∧
  (∀ e ∈ g, e.2.2 < 2 ^ e.2.1 ∧ e.2.1 < g.length) ∧
  g.Pairwise (fun a b => ¬ codeBits a <+: codeBits b ∧ ¬ codeBits b <+: codeBits a)

/-- The symbols of a worklist group. -/
def grpSyms (g : HuffGroup) : List ℕ := g.2.map (fun e => e.1)

/-- All symbols across a worklist. -/
def symsOfGroups (l : List HuffGroup) : List ℕ := l.flatMap grpSyms

theorem insertGrp_perm (x : HuffGroup) :
    ∀ l : List HuffGroup, List.Perm (insertGrp x l) (x :: l) := by
  intro l
  induction l with
  | nil => exact List.Perm.refl _
  | cons y ys ih =>
      show List.Perm (if x.1 < y.1 then x :: y :: ys else y :: insertGrp x ys) (x :: y :: ys)
      split
      · exact List.Perm.refl _
      · exact (ih.cons y).trans (List.Perm.swap x y ys)

theorem mem_insertGrp {g x : HuffGroup} {l : List HuffGroup} :
    g ∈ insertGrp x l ↔ g = x ∨ g ∈ l := by
  rw [(insertGrp_perm x l).mem_iff, List.mem_cons]

theorem insertGrp_length (x : HuffGroup) (l : List HuffGroup) :
    (insertGrp x l).length = l.length + 1 :=
  (insertGrp_perm x l).length_eq

theorem sortGrps_perm : ∀ l : List HuffGroup, List.Perm (sortGrps l) l := by
  intro l
  induction l with
  | nil => exact List.Perm.refl _
  | cons x xs ih =>
      exact (insertGrp_perm x (sortGrps xs)).trans (ih.cons x)

theorem perm_flatMap {α β : Type} (f : α → List β) :
    ∀ {l1 l2 : List α}, List.Perm l1 l2 → List.Perm (l1.flatMap f) (l2.flatMap f) := by
  intro l1 l2 h
  induction h with
  | nil => exact List.Perm.refl _
  | cons x _ ih => simpa [List.flatMap_cons] using ih.append_left (f x)
  | swap x y l =>
      simp only [List.flatMap_cons]
      rw [← List.append_assoc, ← List.append_assoc]
      exact List.Perm.append_right _ List.perm_append_comm
  | trans _ _ ih1 ih2 => exact ih1.trans ih2

theorem grpSyms_merge (g1 g2 : HuffGroup) :
    grpSyms (mergeGrp g1 g2) = grpSyms g1 ++ grpSyms g2 := by
  unfold grpSyms mergeGrp
  simp only [List.map_append, List.map_map]
  rfl

theorem huffLoop_syms :
    ∀ (fuel : ℕ) (l : List HuffGroup),
      List.Perm (symsOfGroups (huffLoop fuel l)) (symsOfGroups l) := by
  intro fuel
  induction fuel with
  | zero =>
      intro l
      match l with
      | [] => exact List.Perm.refl _
      | [g] => exact List.Perm.refl _
      | g1 :: g2 :: rest => exact List.Perm.refl _
  | succ fuel ih =>
      intro l
      match l with
      | [] => exact List.Perm.refl _
      | [g] => exact List.Perm.refl _
      | g1 :: g2 :: rest =>
          show List.Perm (symsOfGroups (huffLoop fuel (insertGrp (mergeGrp g1 g2) rest)))
            (symsOfGroups (g1 :: g2 :: rest))
          refine ((ih _).trans ?_)
          have h1 : List.Perm (symsOfGroups (insertGrp (mergeGrp g1 g2) rest))
              (symsOfGroups (mergeGrp g1 g2 :: rest)) :=
            perm_flatMap grpSyms (insertGrp_perm _ rest)
          refine h1.trans ?_
          show List.Perm (grpSyms (mergeGrp g1 g2) ++ symsOfGroups rest)
            (symsOfGroups (g1 :: g2 :: rest))
          rw [grpSyms_merge]
          show List.Perm ((grpSyms g1 ++ grpSyms g2) ++ symsOfGroups rest)
            (grpSyms g1 ++ (grpSyms g2 ++ symsOfGroups rest))
          rw [List.append_assoc]

theorem cons_prefix_cons' {b1 b2 : Bool} {l1 l2 : List Bool} :
    (b1 :: l1) <+: (b2 :: l2) ↔ b1 = b2 ∧ l1 <+: l2 := by
  constructor
  · rintro ⟨t, ht⟩
    rw [List.cons_append] at ht
    injection ht with h1 h2
    exact ⟨h1, t, h2⟩
  · rintro ⟨rfl, t, ht⟩
    exact ⟨t, by rw [List.cons_append, ht]⟩

theorem codeBits_left (e : CodeEntry) (h : e.2.2 < 2 ^ e.2.1) :
    codeBits (e.1, e.2.1 + 1, e.2.2) = false :: codeBits e := by
  unfold codeBits
  exact natBitsBE_false_cons e.2.1 e.2.2 h

theorem codeBits_right (e : CodeEntry) (h : e.2.2 < 2 ^ e.2.1) :
    codeBits (e.1, e.2.1 + 1, e.2.2 + 2 ^ e.2.1) = true :: codeBits e := by
  unfold codeBits
  exact natBitsBE_true_cons e.2.1 e.2.2 h

theorem GrpInv_singleton (s : ℕ) : GrpInv [(s, 0, 0)] := by
  refine ⟨by simp, ?_, ?_⟩
  · intro e he
    rw [List.mem_singleton] at he
    subst he
    exact ⟨by norm_num, by norm_num⟩
  · exact List.pairwise_singleton _ _

theorem GrpInv_merge (g1 g2 : HuffGroup) (h1 : GrpInv g1.2) (h2 : GrpInv g2.2) :
    GrpInv (mergeGrp g1 g2).2 := by
  obtain ⟨hne1, hbd1, hpw1⟩ := h1
  obtain ⟨hne2, hbd2, hpw2⟩ := h2
  have hlen1 : 1 ≤ g1.2.length := List.length_pos.mpr hne1
  have hlen2 : 1 ≤ g2.2.length := List.length_pos.mpr hne2
  unfold mergeGrp
  refine ⟨?_, ?_, ?_⟩
  · simp only [ne_eq, List.append_eq_nil, List.map_eq_nil_iff, not_and]
    intro hc
    exact absurd hc hne1
  · intro e he
    simp only [List.length_append, List.length_map]
    rcases List.mem_append.mp he with h | h
    · obtain ⟨a, ha, rfl⟩ := List.mem_map.mp h
      obtain ⟨hv, hb⟩ := hbd1 a ha
      dsimp only
      refine ⟨?_, by omega⟩
      calc a.2.2 < 2 ^ a.2.1 := hv
        _ ≤ 2 ^ (a.2.1 + 1) := Nat.pow_le_pow_right (by norm_num) (by omega)
    · obtain ⟨a, ha, rfl⟩ := List.mem_map.mp h
      obtain ⟨hv, hb⟩ := hbd2 a ha
      dsimp only
      refine ⟨?_, by omega⟩
      have : 2 ^ (a.2.1 + 1) = 2 ^ a.2.1 + 2 ^ a.2.1 := by ring
      omega
  · rw [List.pairwise_append]
    refine ⟨?_, ?_, ?_⟩
    · rw [List.pairwise_map]
      refine hpw1.imp_of_mem ?_
      intro a b ha hb hab
      have hva := (hbd1 a ha).1
      have hvb := (hbd1 b hb).1
      rw [codeBits_left a hva, codeBits_left b hvb]
      constructor
      · intro hc
        exact hab.1 ((cons_prefix_cons'.mp hc).2)
      · intro hc
        exact hab.2 ((cons_prefix_cons'.mp hc).2)
    · rw [List.pairwise_map]
      refine hpw2.imp_of_mem ?_
      intro a b ha hb hab
      have hva := (hbd2 a ha).1
      have hvb := (hbd2 b hb).1
      rw [codeBits_right a hva, codeBits_right b hvb]
      constructor
      · intro hc
        exact hab.1 ((cons_prefix_cons'.mp hc).2)
      · intro hc
        exact hab.2 ((cons_prefix_cons'.mp hc).2)
    · intro x hx y hy
      obtain ⟨a, ha, rfl⟩ := List.mem_map.mp hx
      obtain ⟨b, hb, rfl⟩ := List.mem_map.mp hy
      rw [codeBits_left a (hbd1 a ha).1, codeBits_right b (hbd2 b hb).1]
      constructor
      · intro hc
        exact absurd (cons_prefix_cons'.mp hc).1 (by simp)
      · intro hc
        exact absurd (cons_prefix_cons'.mp hc).1 (by simp)

theorem huffLoop_nil (fuel : ℕ) : huffLoop fuel [] = [] := by
  cases fuel <;> rfl

theorem huffLoop_single (fuel : ℕ) (g : HuffGroup) : huffLoop fuel [g] = [g] := by
  cases fuel <;> rfl

theorem huffLoop_inv :
    ∀ (fuel : ℕ) (l : List HuffGroup), (∀ g ∈ l, GrpInv g.2) →
      ∀ g ∈ huffLoop fuel l, GrpInv g.2 := by
  intro fuel
  induction fuel with
  | zero =>
      intro l hl g hg
      rcases l with _ | ⟨g1, l⟩
      · rw [huffLoop_nil] at hg
        simp at hg
      rcases l with _ | ⟨g2, rest⟩
      · rw [huffLoop_single, List.mem_singleton] at hg
        subst hg
        exact hl _ (by simp)
      · rw [show huffLoop 0 (g1 :: g2 :: rest) = g1 :: g2 :: rest from rfl] at hg
        exact hl g hg
  | succ fuel ih =>
      intro l hl g hg
      rcases l with _ | ⟨g1, l⟩
      · rw [huffLoop_nil] at hg
        simp at hg
      rcases l with _ | ⟨g2, rest⟩
      · rw [huffLoop_single, List.mem_singleton] at hg
        subst hg
        exact hl _ (by simp)
      · rw [show huffLoop (fuel + 1) (g1 :: g2 :: rest)
              = huffLoop fuel (insertGrp (mergeGrp g1 g2) rest) from rfl] at hg
        refine ih (insertGrp (mergeGrp g1 g2) rest) ?_ g hg
        intro x hx
        rcases mem_insertGrp.mp hx with h | h
        · subst h
          exact GrpInv_merge g1 g2 (hl g1 (by simp)) (hl g2 (by simp))
        · exact hl x (by simp [h])

theorem huffLoop_singleton :
    ∀ (fuel : ℕ) (l : List HuffGroup), l ≠ [] → l.length ≤ fuel + 1 →
      ∃ g, huffLoop fuel l = [g] := by
  intro fuel
  induction fuel with
  | zero =>
      intro l hne hlen
      match l with
      | [g] => exact ⟨g, huffLoop_single 0 g⟩
      | [] => exact absurd rfl hne
      | g1 :: g2 :: rest => simp at hlen
  | succ fuel ih =>
      intro l hne hlen
      match l with
      | [] => exact absurd rfl hne
      | [g] => exact ⟨g, huffLoop_single _ g⟩
      | g1 :: g2 :: rest =>
          show ∃ g, huffLoop fuel (insertGrp (mergeGrp g1 g2) rest) = [g]
          refine ih _ ?_ ?_
          · intro hc
            have := congrArg List.length hc
            rw [insertGrp_length] at this
            simp at this
          · rw [insertGrp_length]
            simp only [List.length_cons] at hlen
            omega

theorem huffLoop_bits_pos :
    ∀ (fuel : ℕ) (l : List HuffGroup) (g : HuffGroup),
      2 ≤ l.length → huffLoop fuel l = [g] → ∀ e ∈ g.2, 1 ≤ e.2.1 := by
  intro fuel
  induction fuel with
  | zero =>
      intro l g hlen hloop
      match l, hlen with
      | g1 :: g2 :: rest, _ =>
          rw [show huffLoop 0 (g1 :: g2 :: rest) = g1 :: g2 :: rest from rfl] at hloop
          have := congrArg List.length hloop
          simp at this
  | succ fuel ih =>
      intro l g hlen hloop
      match l, hlen with
      | g1 :: g2 :: rest, _ =>
          rw [show huffLoop (fuel + 1) (g1 :: g2 :: rest)
                = huffLoop fuel (insertGrp (mergeGrp g1 g2) rest) from rfl] at hloop
          match rest with
          | [] =>
              rw [show insertGrp (mergeGrp g1 g2) [] = [mergeGrp g1 g2] from rfl,
                  huffLoop_single] at hloop
              injection hloop with hg
              subst hg
              intro e he
              rcases List.mem_append.mp he with h | h
              · obtain ⟨a, _, rfl⟩ := List.mem_map.mp h
                dsimp only
                omega
              · obtain ⟨a, _, rfl⟩ := List.mem_map.mp h
                dsimp only
                omega
          | r :: rs =>
              refine ih _ g ?_ hloop
              rw [insertGrp_length]
              simp

theorem symsOfGroups_init (freq : List (ℕ × ℚ)) :
    symsOfGroups (freq.map (fun sp => (sp.2, [(sp.1, 0, 0)]))) = freq.map Prod.fst := by
  induction freq with
  | nil => rfl
  | cons sp rest ih =>
      show grpSyms (sp.2, [(sp.1, 0, 0)])
          ++ symsOfGroups (rest.map (fun sp => (sp.2, [(sp.1, 0, 0)])))
        = sp.1 :: rest.map Prod.fst
      rw [ih]
      rfl

theorem from_frequencies_eq (freq : List (ℕ × ℚ)) (hne : freq ≠ []) :
    ∃ g : HuffGroup,
      huffLoop freq.length (sortGrps (freq.map (fun sp => (sp.2, [(sp.1, 0, 0)])))) = [g] ∧
      from_frequencies freq = g.2 := by
  have hlen : (sortGrps (freq.map (fun sp => (sp.2, [(sp.1, 0, 0)])))).length
      = freq.length := by
    rw [(sortGrps_perm _).length_eq, List.length_map]
  have hne' : sortGrps (freq.map (fun sp => (sp.2, [(sp.1, 0, 0)]))) ≠ [] := by
    intro hc
    rw [hc] at hlen
    simp only [List.length_nil] at hlen
    exact hne (List.eq_nil_of_length_eq_zero hlen.symm)
  obtain ⟨g, hg⟩ := huffLoop_singleton freq.length _ hne' (by omega)
  refine ⟨g, hg, ?_⟩
  unfold from_frequencies
  rw [hg]

theorem from_frequencies_good (freq : List (ℕ × ℚ)) (hne : freq ≠ []) :
    GrpInv (from_frequencies freq) ∧
    List.Perm ((from_frequencies freq).map (fun e => e.1)) (freq.map Prod.fst) := by
  obtain ⟨g, hg, heq⟩ := from_frequencies_eq freq hne
  constructor
  · rw [heq]
    refine huffLoop_inv _ _ ?_ g (by rw [hg]; simp)
    intro x hx
    have hx' := (sortGrps_perm _).mem_iff.mp hx
    obtain ⟨sp, _, rfl⟩ := List.mem_map.mp hx'
    exact GrpInv_singleton sp.1
  · rw [heq]
    have h1 := huffLoop_syms freq.length
      (sortGrps (freq.map (fun sp => (sp.2, [(sp.1, 0, 0)]))))
    rw [hg] at h1
    have h2 : List.Perm
        (symsOfGroups (sortGrps (freq.map (fun sp => (sp.2, [(sp.1, 0, 0)])))))
        (symsOfGroups (freq.map (fun sp => (sp.2, [(sp.1, 0, 0)])))) :=
      perm_flatMap grpSyms (sortGrps_perm _)
    have h3 := h1.trans h2
    rw [symsOfGroups_init] at h3
    have h4 : symsOfGroups [g] = g.2.map (fun e => e.1) := by
      show grpSyms g ++ [] = g.2.map (fun e => e.1)
      rw [List.append_nil]
      rfl
    rw [h4] at h3
    exact h3

theorem from_frequencies_bits_pos (freq : List (ℕ × ℚ)) (h2 : 2 ≤ freq.length) :
    ∀ e ∈ from_frequencies freq, 1 ≤ e.2.1 := by
  have hne : freq ≠ [] := by
    intro hc
    subst hc
    simp at h2
  obtain ⟨g, hg, heq⟩ := from_frequencies_eq freq hne
  rw [heq]
  refine huffLoop_bits_pos freq.length _ g ?_ hg
  rw [(sortGrps_perm _).length_eq, List.length_map]
  exact h2

theorem from_frequencies_single (s : ℕ) (p : ℚ) :
    from_frequencies [(s, p)] = [(s, 0, 0)] := rfl

/- ------------------------------------------------------------------ -/
/- The static Huffman source encoder (`src/source_encoder.py`)        -/
/- ------------------------------------------------------------------ -/

/-- The degenerate-source fix-up in `main` of `src/source_encoder.py`: when
the code table has exactly one entry and its code length is 0, force code
length 1 with code value 0. -/
def forceDegenerate (ct : List CodeEntry) : List CodeEntry :=
  match ct with
  | [(s, bits, v)] => if bits = 0 then [(s, 1, 0)] else [(s, bits, v)]
  | _ => ct

/-- Code-table lookup by symbol (the encoder's `table[symbol]`; a missing
symbol raises `KeyError` in Python). -/
def lookupEntry (ct : List CodeEntry) (s : ℕ) : Option CodeEntry :=
  ct.find? (fun e => e.1 == s)

/-- Modelled from the spec: `HuffmanCodec.encode` of `dahuffman_no_EOF` is
not in the repository sources; §3/§4.2 describe it as concatenating each
symbol's code bits into the payload bitstream and packing it into bytes
(final byte padded with zero bits).  A symbol absent from the table fails
(Python `KeyError`). -/
def encodePayload (ct : List CodeEntry) (data : List ℕ) : Option (List ℕ) :=
  (data.mapM (lookupEntry ct)).map (fun es => packBits (es.flatMap codeBits))

/-- Insertion into a list of entries sorted by ascending symbol. -/
def insertBySym (e : CodeEntry) : List CodeEntry → List CodeEntry
  | [] => [e]
  | f :: fs => if e.1 ≤ f.1 then e :: f :: fs else f :: insertBySym e fs

/-- The encoder's `for symbol in sorted(code_table.keys())` order: the entry
list sorted by ascending symbol. -/
def sortBySym : List CodeEntry → List CodeEntry
  | [] => []
  | e :: es => insertBySym e (sortBySym es)

/-- One code-table record of the blob header: symbol (1 byte), code
bit-length (1 byte), code value (`⌈bits/8⌉` bytes little-endian). -/
def entryBytes (e : CodeEntry) : List ℕ :=
  e.1 :: e.2.1 :: leBytes ((e.2.1 + 7) / 8) e.2.2

/-- The header body built by `main` of `src/source_encoder.py`:
`(symbol count − 1)` byte, 4-byte little-endian original length, then the
per-symbol records in ascending symbol order. -/
def headerBody (ct : List CodeEntry) (original_len : ℕ) : List ℕ :=
  (ct.length - 1) :: (leBytes 4 original_len ++ (sortBySym ct).flatMap entryBytes)

/-- All Python write-time range conditions of the encoder's header
construction: `original_len.to_bytes(4)` and `header_size.to_bytes(2)`
overflows, `bytearray.append` range checks for symbol, bit-length and the
count byte, and `value.to_bytes(⌈bits/8⌉)` overflow. -/
def headerWriteOk (ct : List CodeEntry) (original_len : ℕ) : Prop :=
  original_len < 256 ^ 4 ∧ ct.length ≤ 256 ∧
  (headerBody ct original_len).length + 2 < 256 ^ 2 ∧
  ∀ e ∈ ct, e.1 < 256 ∧ e.2.1 < 256 ∧ e.2.2 < 256 ^ ((e.2.1 + 7) / 8)

instance (ct : List CodeEntry) (original_len : ℕ) :
    Decidable (headerWriteOk ct original_len) := by
  unfold headerWriteOk
  infer_instance

/-- `main` of `src/source_encoder.py` with file and CLI handling stripped:
keep the positive-probability PMF rows, build the Huffman code table, apply
the degenerate fix-up, encode the message, and emit
`header_size (2 bytes LE) ++ header body ++ payload`.  The Python
exception points (empty frequency table, empty input, `KeyError` inside
`codec.encode`, and the write-time range checks) become `Except` errors. -/
def sourceEncode (pmf : List (ℕ × ℚ)) (data : List ℕ) : Except String (List ℕ) :=
  if pmf.filter (fun sp => 0 < sp.2) = [] then
    .error "Error: No valid symbols with positive probability"
  else if data = [] then .error "Error: Input file is empty"
  else
    match encodePayload (forceDegenerate (from_frequencies
        (pmf.filter (fun sp => 0 < sp.2)))) data with
    | none => .error "Encoding failed"
    | some payload =>
        if headerWriteOk (forceDegenerate (from_frequencies
            (pmf.filter (fun sp => 0 < sp.2)))) data.length then
          .ok (leBytes 2 ((headerBody (forceDegenerate (from_frequencies
                  (pmf.filter (fun sp => 0 < sp.2)))) data.length).length + 2)
              ++ headerBody (forceDegenerate (from_frequencies
                  (pmf.filter (fun sp => 0 < sp.2)))) data.length ++ payload)
        else .error "OverflowError"

/- ------------------------------------------------------------------ -/
/- The static Huffman source decoder (`src/source_decoder.py`)        -/
/- ------------------------------------------------------------------ -/

/-- Python list indexing `l[i]` for a nonnegative index: out of range
raises `IndexError`. -/
def pyGet (l : List ℕ) (i : ℕ) : Except String ℕ :=
  if h : i < l.length then .ok l[i] else .error "IndexError"

/-- The decoder's code-table reconstruction loop: read `count` records of
`symbol, bits, ⌈bits/8⌉ value bytes`.  Slices past the end are short
(Python slice semantics, `int.from_bytes` accepts them), but reading
`header[pos]`/`header[pos+1]` past the end raises `IndexError`. -/
def parseEntries : ℕ → List ℕ → Except String (List CodeEntry)
  | 0, _ => .ok []
  | count + 1, l =>
      match l with
      | s :: b :: t =>
          (parseEntries count (t.drop ((b + 7) / 8))).map
            (fun es => (s, b, fromLE (t.take ((b + 7) / 8))) :: es)
      | _ => .error "IndexError"

/-- One `code_table[symbol] = (bits, value)` update of the Python dict,
kept as an insertion-ordered association list: an existing key is updated
in place, a new key is appended. -/
def dictInsert (d : List CodeEntry) (e : CodeEntry) : List CodeEntry :=
  if d.any (fun x => x.1 == e.1) then
    d.map (fun x => if x.1 == e.1 then (x.1, e.2) else x)
  else d ++ [e]

/-- The decoder's `code_table` dict after inserting all parsed records. -/
def dictOf (es : List CodeEntry) : List CodeEntry := es.foldl dictInsert []

/-- Reverse lookup of the decoding dict `(bits, value) → symbol`. -/
def findSym (ct : List CodeEntry) (bits value : ℕ) : Option ℕ :=
  (ct.find? (fun e => e.2.1 == bits && e.2.2 == value)).map (fun e => e.1)

/-- Modelled from the spec: `HuffmanCodec.decode` of `dahuffman_no_EOF` is
not in the repository sources; §4.2 describes it as walking the payload
bitstream and "emitting one symbol per matched code", trailing pad bits
being ignored.  The walk keeps `(size, buffer)`, accumulates one bit at a
time, and resets after each match. -/
def decodeGreedy (ct : List CodeEntry) : List Bool → ℕ → ℕ → List ℕ
  | [], _, _ => []
  | bit :: bs, size, buffer =>
      match findSym ct (size + 1) (2 * buffer + (if bit then 1 else 0)) with
      | some s => s :: decodeGreedy ct bs 0 0
      | none => decodeGreedy ct bs (size + 1) (2 * buffer + (if bit then 1 else 0))

/-- `main` of `src/source_decoder.py` with file handling stripped: reject
blobs shorter than 6 bytes; read the 2-byte little-endian header size;
slice header and payload (Python slices — the header-size field is never
compared with the blob length); rebuild the code table; fill directly for
a one-entry table of code length ≤ 1; otherwise walk the payload bits and
keep the first `original_len` decoded symbols. -/
def sourceDecode (data : List ℕ) : Except String (List ℕ) :=
  if data.length < 6 then .error "Error: File too short"
  else
    let header_size := fromLE (data.take 2)
    let header := (data.take header_size).drop 2
    let payload := data.drop header_size
    match pyGet header 0 with
    | .error e => .error e
    | .ok cnt1 =>
        let original_len := fromLE ((header.drop 1).take 4)
        match parseEntries (cnt1 + 1) (header.drop 5) with
        | .error e => .error e
        | .ok entries =>
            match dictOf entries with
            | [(s, bits, _)] =>
                if bits ≤ 1 then .ok (List.replicate original_len s)
                else .ok ((decodeGreedy (dictOf entries) (unpackBytes payload) 0 0).take
                    original_len)
            | _ => .ok ((decodeGreedy (dictOf entries) (unpackBytes payload) 0 0).take
                original_len)

/- Correctness of the greedy table-walk decoder on a prefix-free table. -/

/-- Pairwise prefix-freeness of a code table's bit strings. -/
def PrefixFreeTable (ct : List CodeEntry) : Prop :=
  ct.Pairwise (fun a b => ¬ codeBits a <+: codeBits b ∧ ¬ codeBits b <+: codeBits a)

theorem prefixFree_symm :
    Symmetric (fun a b : CodeEntry => ¬ codeBits a <+: codeBits b ∧ ¬ codeBits b <+: codeBits a) :=
  fun _ _ h => ⟨h.2, h.1⟩

theorem bitsVal_snoc (p : List Bool) (b : Bool) :
    bitsVal (p ++ [b]) = 2 * bitsVal p + (if b then 1 else 0) := by
  rw [bitsVal_append]
  have hb : bitsVal [b] = if b then 1 else 0 := by cases b <;> rfl
  rw [hb]
  have hl : ([b] : List Bool).length = 1 := rfl
  rw [hl, pow_one]
  ring

theorem decodeGreedy_cons (ct : List CodeEntry) (bit : Bool) (bs : List Bool)
    (size buffer : ℕ) :
    decodeGreedy ct (bit :: bs) size buffer
      = match findSym ct (size + 1) (2 * buffer + (if bit then 1 else 0)) with
        | some s => s :: decodeGreedy ct bs 0 0
        | none => decodeGreedy ct bs (size + 1) (2 * buffer + (if bit then 1 else 0)) := rfl

theorem findSym_self (ct : List CodeEntry) (e : CodeEntry) (he : e ∈ ct)
    (hpf : PrefixFreeTable ct) :
    findSym ct e.2.1 e.2.2 = some e.1 := by
  unfold findSym
  cases hfind : ct.find? (fun f => f.2.1 == e.2.1 && f.2.2 == e.2.2) with
  | none =>
      have := List.find?_eq_none.mp hfind e he
      simp at this
  | some f =>
      have hf_mem : f ∈ ct := List.mem_of_find?_eq_some hfind
      have hf_pred := List.find?_some hfind
      simp only [Bool.and_eq_true, beq_iff_eq] at hf_pred
      obtain ⟨hb, hv⟩ := hf_pred
      have hcode : codeBits f = codeBits e := by
        unfold codeBits
        rw [hb, hv]
      have hfe : f = e := by
        by_contra hne
        have := hpf.forall prefixFree_symm hf_mem he hne
        exact this.1 (hcode ▸ List.prefix_refl (codeBits f))
      subst hfe
      rfl

theorem findSym_proper_prefix_none (ct : List CodeEntry) (e : CodeEntry)
    (he : e ∈ ct) (hpf : PrefixFreeTable ct) (q : List Bool)
    (hq : q <+: codeBits e) (hne : q ≠ codeBits e) :
    findSym ct q.length (bitsVal q) = none := by
  unfold findSym
  have hnone : ct.find? (fun f => f.2.1 == q.length && f.2.2 == bitsVal q) = none := by
    rw [List.find?_eq_none]
    intro f hf hpred
    simp only [Bool.and_eq_true, beq_iff_eq] at hpred
    obtain ⟨hb, hv⟩ := hpred
    have hcodef : codeBits f = q := by
      unfold codeBits
      rw [hb, hv]
      exact natBitsBE_bitsVal q
    have hfe : f ≠ e := by
      intro hc
      subst hc
      exact hne (hcodef.symm)
    have := hpf.forall prefixFree_symm hf he hfe
    exact this.1 (hcodef ▸ hq)
  rw [hnone]
  rfl

theorem decodeGreedy_walk (ct : List CodeEntry) (s : ℕ) :
    ∀ (d : List Bool), d ≠ [] → ∀ (p rest : List Bool),
      (∀ q : List Bool, q <+: d → q ≠ [] → q ≠ d →
          findSym ct (p ++ q).length (bitsVal (p ++ q)) = none) →
      findSym ct (p ++ d).length (bitsVal (p ++ d)) = some s →
      decodeGreedy ct (d ++ rest) p.length (bitsVal p)
        = s :: decodeGreedy ct rest 0 0 := by
  intro d
  induction d with
  | nil => intro h; exact absurd rfl h
  | cons b d' ih =>
      intro _ p rest hnone hsome
      rcases d' with _ | ⟨b2, d''⟩
      · rw [show (([b] : List Bool) ++ rest) = b :: rest from rfl, decodeGreedy_cons]
        have hfind : findSym ct (p.length + 1)
            (2 * bitsVal p + (if b then 1 else 0)) = some s := by
          have h1 : (p ++ [b]).length = p.length + 1 := by simp
          have h2 : bitsVal (p ++ [b]) = 2 * bitsVal p + (if b then 1 else 0) :=
            bitsVal_snoc p b
          rw [← h1, ← h2]
          exact hsome
        rw [hfind]
      · rw [show ((b :: b2 :: d'') ++ rest) = b :: ((b2 :: d'') ++ rest) from rfl,
            decodeGreedy_cons]
        have hq1 : findSym ct (p.length + 1)
            (2 * bitsVal p + (if b then 1 else 0)) = none := by
          have h1 : (p ++ [b]).length = p.length + 1 := by simp
          have h2 : bitsVal (p ++ [b]) = 2 * bitsVal p + (if b then 1 else 0) :=
            bitsVal_snoc p b
          rw [← h1, ← h2]
          refine hnone [b] ⟨b2 :: d'', rfl⟩ (by simp) ?_
          intro hc
          have := congrArg List.length hc
          simp at this
        rw [hq1]
        have hstate1 : p.length + 1 = (p ++ [b]).length := by simp
        have hstate2 : 2 * bitsVal p + (if b then 1 else 0) = bitsVal (p ++ [b]) :=
          (bitsVal_snoc p b).symm
        rw [hstate1, hstate2]
        refine ih (by simp) (p ++ [b]) rest ?_ ?_
        · intro q hq hqne hqd
          rw [List.append_assoc]
          refine hnone (b :: q) ?_ (by simp) ?_
          · exact (cons_prefix_cons'.mpr ⟨rfl, hq⟩ : (b :: q) <+: (b :: b2 :: d''))
          · intro hc
            injection hc with _ hc2
            exact hqd hc2
        · rw [List.append_assoc]
          exact hsome

theorem decodeGreedy_entry (ct : List CodeEntry) (e : CodeEntry) (he : e ∈ ct)
    (hpf : PrefixFreeTable ct) (hv : e.2.2 < 2 ^ e.2.1) (hb : 1 ≤ e.2.1)
    (rest : List Bool) :
    decodeGreedy ct (codeBits e ++ rest) 0 0 = e.1 :: decodeGreedy ct rest 0 0 := by
  have hd_ne : codeBits e ≠ [] := by
    intro hc
    have := congrArg List.length hc
    rw [show (codeBits e).length = e.2.1 from natBitsBE_length e.2.1 e.2.2] at this
    simp at this
    omega
  have hwalk := decodeGreedy_walk ct e.1 (codeBits e) hd_ne [] rest
  simp only [List.nil_append, List.length_nil] at hwalk
  have hsome : findSym ct (codeBits e).length (bitsVal (codeBits e)) = some e.1 := by
    rw [show (codeBits e).length = e.2.1 from natBitsBE_length e.2.1 e.2.2,
        show bitsVal (codeBits e) = e.2.2 from bitsVal_natBitsBE e.2.1 e.2.2 hv]
    exact findSym_self ct e he hpf
  have hnone : ∀ q : List Bool, q <+: codeBits e → q ≠ [] → q ≠ codeBits e →
      findSym ct q.length (bitsVal q) = none := by
    intro q hq _ hqne
    exact findSym_proper_prefix_none ct e he hpf q hq hqne
  have := hwalk (fun q hq hne hqd => hnone q hq hne hqd) hsome
  rw [show bitsVal [] = 0 from rfl] at this
  exact this

theorem decodeGreedy_entries (ct : List CodeEntry) (hpf : PrefixFreeTable ct) :
    ∀ (es : List CodeEntry) (rest : List Bool),
      (∀ e ∈ es, e ∈ ct ∧ e.2.2 < 2 ^ e.2.1 ∧ 1 ≤ e.2.1) →
      decodeGreedy ct (es.flatMap codeBits ++ rest) 0 0
        = es.map (fun e => e.1) ++ decodeGreedy ct rest 0 0 := by
  intro es
  induction es with
  | nil => intro rest _; simp
  | cons e es ih =>
      intro rest hes
      obtain ⟨hmem, hv, hb⟩ := hes e (by simp)
      rw [List.flatMap_cons, List.append_assoc,
          decodeGreedy_entry ct e hmem hpf hv hb,
          ih rest (fun f hf => hes f (by simp [hf])), List.map_cons, List.cons_append]

/- Header serialization and parsing round-trip. -/

theorem take_append_exact {α : Type} (l1 l2 : List α) (n : ℕ) (h : n = l1.length) :
    (l1 ++ l2).take n = l1 := by
  subst h
  induction l1 with
  | nil => rfl
  | cons a l ih => simp [List.take_succ_cons, ih]

theorem drop_append_exact {α : Type} (l1 l2 : List α) (n : ℕ) (h : n = l1.length) :
    (l1 ++ l2).drop n = l2 := by
  subst h
  induction l1 with
  | nil => rfl
  | cons a l ih => simpa using ih

theorem entryBytes_length (e : CodeEntry) :
    (entryBytes e).length = 2 + (e.2.1 + 7) / 8 := by
  unfold entryBytes
  simp [leBytes_length]
  omega

theorem parseEntries_serialize :
    ∀ (es : List CodeEntry) (extra : List ℕ),
      (∀ e ∈ es, e.2.2 < 256 ^ ((e.2.1 + 7) / 8)) →
      parseEntries es.length (es.flatMap entryBytes ++ extra) = .ok es := by
  intro es
  induction es with
  | nil => intro extra _; rfl
  | cons e rest ih =>
      intro extra hbd
      obtain ⟨s, b, v⟩ := e
      have hv : v < 256 ^ ((b + 7) / 8) := by
        have := hbd (s, b, v) (by simp)
        exact this
      rw [List.flatMap_cons]
      rw [show entryBytes (s, b, v) = s :: b :: leBytes ((b + 7) / 8) v from rfl]
      rw [show ((s :: b :: leBytes ((b + 7) / 8) v) ++ rest.flatMap entryBytes ++ extra)
            = s :: b :: (leBytes ((b + 7) / 8) v ++ (rest.flatMap entryBytes ++ extra))
          from by simp]
      rw [show parseEntries ((s, b, v) :: rest).length
            (s :: b :: (leBytes ((b + 7) / 8) v ++ (rest.flatMap entryBytes ++ extra)))
          = (parseEntries rest.length
              ((leBytes ((b + 7) / 8) v ++ (rest.flatMap entryBytes ++ extra)).drop
                ((b + 7) / 8))).map
              (fun es =>
                (s, b, fromLE ((leBytes ((b + 7) / 8) v
                    ++ (rest.flatMap entryBytes ++ extra)).take ((b + 7) / 8))) :: es)
          from rfl]
      rw [take_append_exact _ _ _ (leBytes_length _ _).symm,
          drop_append_exact _ _ _ (leBytes_length _ _).symm,
          fromLE_leBytes _ _ hv,
          ih extra (fun f hf => hbd f (by simp [hf]))]
      rfl

/- The Python dict keeps parsed entries verbatim when all symbols differ. -/

theorem dictInsert_not_mem (d : List CodeEntry) (e : CodeEntry)
    (h : ∀ x ∈ d, x.1 ≠ e.1) : dictInsert d e = d ++ [e] := by
  unfold dictInsert
  rw [if_neg]
  intro hc
  rw [List.any_eq_true] at hc
  obtain ⟨x, hx, hpx⟩ := hc
  rw [beq_iff_eq] at hpx
  exact h x hx hpx

theorem foldl_dictInsert :
    ∀ (es d : List CodeEntry),
      ((d ++ es).map (fun e => e.1)).Nodup →
      es.foldl dictInsert d = d ++ es := by
  intro es
  induction es with
  | nil => intro d _; simp
  | cons e rest ih =>
      intro d hnd
      rw [List.foldl_cons]
      have hkey : ∀ x ∈ d, x.1 ≠ e.1 := by
        intro x hx
        rw [List.map_append, List.nodup_append] at hnd
        have hdisj := hnd.2.2
        intro hc
        refine hdisj (a := x.1) ?_ ?_
        · exact List.mem_map.mpr ⟨x, hx, rfl⟩
        · rw [hc]
          simp
      rw [dictInsert_not_mem d e hkey]
      have hre : (d ++ [e]) ++ rest = d ++ e :: rest := by simp
      rw [ih (d ++ [e]) (by rw [hre]; exact hnd), hre]

theorem dictOf_nodup (es : List CodeEntry) (h : (es.map (fun e => e.1)).Nodup) :
    dictOf es = es := by
  unfold dictOf
  have := foldl_dictInsert es [] (by simpa using h)
  simpa using this

/- The symbol sort of the encoder header. -/

theorem insertBySym_perm (e : CodeEntry) :
    ∀ l : List CodeEntry, List.Perm (insertBySym e l) (e :: l) := by
  intro l
  induction l with
  | nil => exact List.Perm.refl _
  | cons f fs ih =>
      show List.Perm (if e.1 ≤ f.1 then e :: f :: fs else f :: insertBySym e fs) (e :: f :: fs)
      split
      · exact List.Perm.refl _
      · exact (ih.cons f).trans (List.Perm.swap e f fs)

theorem sortBySym_perm : ∀ l : List CodeEntry, List.Perm (sortBySym l) l := by
  intro l
  induction l with
  | nil => exact List.Perm.refl _
  | cons e es ih =>
      exact (insertBySym_perm e (sortBySym es)).trans (ih.cons e)

theorem insertBySym_sorted (e : CodeEntry) :
    ∀ l : List CodeEntry, l.Pairwise (fun a b => a.1 ≤ b.1) →
      (insertBySym e l).Pairwise (fun a b => a.1 ≤ b.1) := by
  intro l
  induction l with
  | nil => intro _; exact List.pairwise_singleton _ _
  | cons f fs ih =>
      intro hp
      rw [List.pairwise_cons] at hp
      obtain ⟨hf, hfs⟩ := hp
      show (if e.1 ≤ f.1 then e :: f :: fs else f :: insertBySym e fs).Pairwise _
      split
      · rename_i hef
        rw [List.pairwise_cons]
        refine ⟨?_, List.pairwise_cons.mpr ⟨hf, hfs⟩⟩
        intro x hx
        rcases List.mem_cons.mp hx with rfl | hx
        · exact hef
        · exact le_trans hef (hf x hx)
      · rename_i hef
        push_neg at hef
        rw [List.pairwise_cons]
        refine ⟨?_, ih hfs⟩
        intro x hx
        rcases List.mem_cons.mp ((insertBySym_perm e fs).mem_iff.mp hx) with h1 | h1
        · rw [h1]
          exact le_of_lt hef
        · exact hf x h1

theorem sortBySym_sorted :
    ∀ l : List CodeEntry, (sortBySym l).Pairwise (fun a b => a.1 ≤ b.1) := by
  intro l
  induction l with
  | nil => exact List.Pairwise.nil
  | cons e es ih => exact insertBySym_sorted e (sortBySym es) ih

theorem sortBySym_strict (ct : List CodeEntry)
    (hnd : ((sortBySym ct).map (fun e => e.1)).Nodup) :
    (sortBySym ct).Pairwise (fun a b => a.1 < b.1) := by
  have hle := sortBySym_sorted ct
  have hne : (sortBySym ct).Pairwise (fun a b => a.1 ≠ b.1) := by
    rw [List.Nodup, List.pairwise_map] at hnd
    exact hnd
  exact (hle.and hne).imp (fun h => lt_of_le_of_ne h.1 h.2)

/- The `dahuffman` encoder lookup. -/

theorem lookupEntry_some (ct : List CodeEntry) (s : ℕ) (e : CodeEntry)
    (h : lookupEntry ct s = some e) : e ∈ ct ∧ e.1 = s := by
  unfold lookupEntry at h
  refine ⟨List.mem_of_find?_eq_some h, ?_⟩
  have := List.find?_some h
  rwa [beq_iff_eq] at this

theorem lookupEntry_isSome (ct : List CodeEntry) (s : ℕ)
    (h : ∃ e ∈ ct, e.1 = s) : ∃ e, lookupEntry ct s = some e := by
  unfold lookupEntry
  cases hfind : ct.find? (fun f => f.1 == s) with
  | none =>
      obtain ⟨e, he, hes⟩ := h
      have := List.find?_eq_none.mp hfind e he
      rw [beq_iff_eq] at this
      exact absurd hes this
  | some e => exact ⟨e, rfl⟩

theorem mapM_lookup (ct : List CodeEntry) :
    ∀ (m : List ℕ) (es : List CodeEntry),
      m.mapM (lookupEntry ct) = some es →
      es.map (fun e => e.1) = m ∧ ∀ e ∈ es, e ∈ ct := by
  intro m
  induction m with
  | nil =>
      intro es h
      simp only [List.mapM_nil, pure, Option.some.injEq] at h
      subst h
      simp
  | cons s m ih =>
      intro es h
      rw [List.mapM_cons] at h
      cases hl : lookupEntry ct s with
      | none => rw [hl] at h; simp at h
      | some e =>
          rw [hl] at h
          cases hm : m.mapM (lookupEntry ct) with
          | none => rw [hm] at h; simp at h
          | some es' =>
              rw [hm] at h
              have h' : e :: es' = es := by simpa using h
              obtain ⟨hmap, hmem⟩ := ih es' hm
              obtain ⟨he_mem, he_sym⟩ := lookupEntry_some ct s e hl
              subst h'
              constructor
              · rw [List.map_cons, hmap, he_sym]
              · intro f hf
                rcases List.mem_cons.mp hf with rfl | hf
                · exact he_mem
                · exact hmem f hf

theorem mapM_lookup_isSome (ct : List CodeEntry) :
    ∀ m : List ℕ, (∀ s ∈ m, ∃ e ∈ ct, e.1 = s) →
      ∃ es, m.mapM (lookupEntry ct) = some es := by
  intro m
  induction m with
  | nil => intro _; exact ⟨[], rfl⟩
  | cons s m ih =>
      intro hcov
      obtain ⟨e, he⟩ := lookupEntry_isSome ct s (hcov s (by simp))
      obtain ⟨es, hes⟩ := ih (fun x hx => hcov x (by simp [hx]))
      refine ⟨e :: es, ?_⟩
      rw [List.mapM_cons, he, hes]
      rfl

/- Write-time bounds of the encoder header. -/

theorem nodup_lt_length_le (l : List ℕ) (hnd : l.Nodup) (hlt : ∀ x ∈ l, x < 256) :
    l.length ≤ 256 := by
  have h1 : l.toFinset ⊆ Finset.range 256 := by
    intro x hx
    rw [List.mem_toFinset] at hx
    rw [Finset.mem_range]
    exact hlt x hx
  have h2 := Finset.card_le_card h1
  rw [List.toFinset_card_of_nodup hnd, Finset.card_range] at h2
  exact h2

theorem val_fits (b v : ℕ) (h : v < 2 ^ b) : v < 256 ^ ((b + 7) / 8) := by
  have h1 : 2 ^ b ≤ 2 ^ (8 * ((b + 7) / 8)) := Nat.pow_le_pow_right (by norm_num) (by omega)
  have h2 : (256 : ℕ) ^ ((b + 7) / 8) = 2 ^ (8 * ((b + 7) / 8)) := by
    rw [show (256 : ℕ) = 2 ^ 8 from rfl, ← pow_mul]
  omega

theorem headerBody_length (ct : List CodeEntry) (n : ℕ) :
    (headerBody ct n).length = 5 + ((sortBySym ct).flatMap entryBytes).length := by
  unfold headerBody
  simp only [List.length_cons, List.length_append, leBytes_length]
  omega

theorem flatMap_entryBytes_le :
    ∀ es : List CodeEntry, (∀ e ∈ es, e.2.1 < 256) →
      (es.flatMap entryBytes).length ≤ 34 * es.length := by
  intro es
  induction es with
  | nil => intro _; simp
  | cons e rest ih =>
      intro h
      rw [List.flatMap_cons, List.length_append, entryBytes_length]
      have hb := h e (by simp)
      have hdiv : (e.2.1 + 7) / 8 ≤ 32 := by omega
      have hr := ih (fun f hf => h f (by simp [hf]))
      simp only [List.length_cons]
      omega

/- Unfolding of a successful encoder run. -/

theorem sourceEncode_ok (pmf : List (ℕ × ℚ)) (m : List ℕ) (payload : List ℕ)
    (hfil : pmf.filter (fun sp => 0 < sp.2) = pmf)
    (hpne : pmf ≠ []) (hmne : m ≠ [])
    (henc : encodePayload (forceDegenerate (from_frequencies pmf)) m = some payload)
    (hwok : headerWriteOk (forceDegenerate (from_frequencies pmf)) m.length) :
    sourceEncode pmf m = .ok
      (leBytes 2 ((headerBody (forceDegenerate (from_frequencies pmf)) m.length).length + 2)
        ++ headerBody (forceDegenerate (from_frequencies pmf)) m.length ++ payload) := by
  unfold sourceEncode
  rw [hfil, if_neg hpne, if_neg hmne]
  simp only [henc]
  rw [if_pos hwok]

/- The degenerate single-symbol path of the encoder. -/

theorem flatMap_codeBits_replicate (k : ℕ) (s : ℕ) :
    (List.replicate k ((s, 1, 0) : CodeEntry)).flatMap codeBits
      = List.replicate k false := by
  induction k with
  | zero => rfl
  | succ k ih =>
      rw [List.replicate_succ, List.flatMap_cons, ih,
          show codeBits ((s, 1, 0) : CodeEntry) = [false] from rfl,
          List.replicate_succ]
      rfl

theorem packExact_replicate_false :
    ∀ n : ℕ, packExact (List.replicate (8 * n) false) = List.replicate n 0 := by
  intro n
  induction n with
  | zero => rfl
  | succ n ih =>
      have h1 : 8 * (n + 1) = 8 + 8 * n := by ring
      rw [h1, List.replicate_add]
      rw [show (List.replicate 8 false ++ List.replicate (8 * n) false)
            = false :: false :: false :: false :: false :: false :: false :: false ::
              List.replicate (8 * n) false from rfl]
      rw [show packExact (false :: false :: false :: false :: false :: false :: false ::
              false :: List.replicate (8 * n) false)
            = bitsVal [false, false, false, false, false, false, false, false]
                :: packExact (List.replicate (8 * n) false) from rfl]
      rw [ih, show bitsVal [false, false, false, false, false, false, false, false] = 0
            from rfl, List.replicate_succ]

theorem packBits_replicate_false (k : ℕ) :
    packBits (List.replicate k false) = List.replicate ((k + 7) / 8) 0 := by
  unfold packBits
  rw [List.length_replicate, ← List.replicate_add]
  have h8 : k + (8 - k % 8) % 8 = 8 * ((k + 7) / 8) := by omega
  rw [h8, packExact_replicate_false]

theorem mapM_lookup_replicate (s : ℕ) (b v : ℕ) :
    ∀ k : ℕ, (List.replicate k s).mapM (lookupEntry [(s, b, v)])
      = some (List.replicate k ((s, b, v) : CodeEntry)) := by
  intro k
  induction k with
  | zero => rfl
  | succ k ih =>
      rw [List.replicate_succ, List.mapM_cons, ih,
          show lookupEntry [(s, b, v)] s = some (s, b, v) from by
            unfold lookupEntry
            simp [List.find?]]
      rfl

theorem pyGet_cons (a : ℕ) (l : List ℕ) : pyGet (a :: l) 0 = .ok a := by
  unfold pyGet
  rw [dif_pos (by simp)]
  rfl

theorem sourceDecode_parse (ct : List CodeEntry) (olen : ℕ) (payload : List ℕ)
    (hnd : ((sortBySym ct).map (fun e => e.1)).Nodup)
    (hbounds : ∀ e ∈ sortBySym ct, e.2.2 < 256 ^ ((e.2.1 + 7) / 8))
    (hct_ne : ct ≠ [])
    (holen : olen < 256 ^ 4)
    (hH : (headerBody ct olen).length + 2 < 256 ^ 2) :
    sourceDecode (leBytes 2 ((headerBody ct olen).length + 2)
        ++ headerBody ct olen ++ payload)
      = match sortBySym ct with
        | [(s, bits, _)] =>
            if bits ≤ 1 then .ok (List.replicate olen s)
            else .ok ((decodeGreedy (sortBySym ct) (unpackBytes payload) 0 0).take olen)
        | _ => .ok ((decodeGreedy (sortBySym ct) (unpackBytes payload) 0 0).take olen) := by
  have hlen2 : (leBytes 2 ((headerBody ct olen).length + 2)).length = 2 := leBytes_length 2 _
  have hbody5 : (headerBody ct olen).length
      = 5 + ((sortBySym ct).flatMap entryBytes).length := headerBody_length ct olen
  have hassoc : leBytes 2 ((headerBody ct olen).length + 2) ++ headerBody ct olen ++ payload
      = leBytes 2 ((headerBody ct olen).length + 2) ++ (headerBody ct olen ++ payload) := by
    rw [List.append_assoc]
  have htake2 : (leBytes 2 ((headerBody ct olen).length + 2) ++ headerBody ct olen
      ++ payload).take 2 = leBytes 2 ((headerBody ct olen).length + 2) := by
    rw [hassoc]
    exact take_append_exact _ _ 2 hlen2.symm
  have hfrom : fromLE ((leBytes 2 ((headerBody ct olen).length + 2) ++ headerBody ct olen
      ++ payload).take 2) = (headerBody ct olen).length + 2 := by
    rw [htake2]
    exact fromLE_leBytes 2 _ hH
  have hlenfull : (leBytes 2 ((headerBody ct olen).length + 2) ++ headerBody ct olen).length
      = (headerBody ct olen).length + 2 := by
    rw [List.length_append, hlen2]
    omega
  have htakeH : (leBytes 2 ((headerBody ct olen).length + 2) ++ headerBody ct olen
      ++ payload).take ((headerBody ct olen).length + 2)
      = leBytes 2 ((headerBody ct olen).length + 2) ++ headerBody ct olen :=
    take_append_exact _ _ _ hlenfull.symm
  have hheader : ((leBytes 2 ((headerBody ct olen).length + 2) ++ headerBody ct olen
      ++ payload).take ((headerBody ct olen).length + 2)).drop 2 = headerBody ct olen := by
    rw [htakeH]
    exact drop_append_exact _ _ 2 hlen2.symm
  have hpayload : (leBytes 2 ((headerBody ct olen).length + 2) ++ headerBody ct olen
      ++ payload).drop ((headerBody ct olen).length + 2) = payload :=
    drop_append_exact _ _ _ hlenfull.symm
  have hlen_ge : ¬ (leBytes 2 ((headerBody ct olen).length + 2) ++ headerBody ct olen
      ++ payload).length < 6 := by
    rw [List.length_append, List.length_append, hlen2]
    omega
  have hcons : headerBody ct olen = (ct.length - 1)
      :: (leBytes 4 olen ++ (sortBySym ct).flatMap entryBytes) := rfl
  have hcnt : ct.length - 1 + 1 = ct.length := by
    have := List.length_pos.mpr hct_ne
    omega
  have hdrop1 : (headerBody ct olen).drop 1
      = leBytes 4 olen ++ (sortBySym ct).flatMap entryBytes := by
    rw [hcons]
    rfl
  have horig : fromLE (((headerBody ct olen).drop 1).take 4) = olen := by
    rw [hdrop1, take_append_exact _ _ 4 (leBytes_length 4 olen).symm]
    exact fromLE_leBytes 4 olen holen
  have hdrop5 : (headerBody ct olen).drop 5 = (sortBySym ct).flatMap entryBytes := by
    rw [hcons]
    rw [show ((ct.length - 1) :: (leBytes 4 olen ++ (sortBySym ct).flatMap entryBytes)).drop 5
          = (leBytes 4 olen ++ (sortBySym ct).flatMap entryBytes).drop 4 from rfl]
    exact drop_append_exact _ _ 4 (leBytes_length 4 olen).symm
  have hsortlen : (sortBySym ct).length = ct.length := (sortBySym_perm ct).length_eq
  have hparse : parseEntries (ct.length - 1 + 1) ((headerBody ct olen).drop 5)
      = .ok (sortBySym ct) := by
    rw [hcnt, hdrop5, ← hsortlen, ← List.append_nil ((sortBySym ct).flatMap entryBytes)]
    exact parseEntries_serialize (sortBySym ct) [] hbounds
  have hdict : dictOf (sortBySym ct) = sortBySym ct := dictOf_nodup _ hnd
  unfold sourceDecode
  rw [if_neg hlen_ge]
  simp only [hfrom, hheader, hpayload]
  rw [hcons, pyGet_cons]
  simp only [← hcons, hparse, hdict, horig]

theorem forceDegenerate_of_ne_one (ct : List CodeEntry) (h : ct.length ≠ 1) :
    forceDegenerate ct = ct := by
  match ct with
  | [] => rfl
  | [e] => exact (h rfl).elim
  | e1 :: e2 :: rest => rfl

theorem headerBody_single_length (s b v k : ℕ) :
    (headerBody [(s, b, v)] k).length = 7 + (b + 7) / 8 := by
  rw [headerBody_length, show sortBySym [(s, b, v)] = [(s, b, v)] from rfl,
      show ([(s, b, v)] : List CodeEntry).flatMap entryBytes
        = entryBytes (s, b, v) ++ [] from rfl,
      List.append_nil, entryBytes_length]
  dsimp only
  omega

theorem encode_single (s k : ℕ) (p : ℚ) (hs : s < 256) (hp : 0 < p)
    (hk : 0 < k) (hk32 : k < 2 ^ 32) :
    sourceEncode [(s, p)] (List.replicate k s)
      = .ok (leBytes 2 10 ++ headerBody [(s, 1, 0)] k
          ++ List.replicate ((k + 7) / 8) 0) := by
  have hforce : forceDegenerate (from_frequencies [(s, p)]) = [(s, 1, 0)] := rfl
  have hblen : (headerBody [(s, 1, 0)] k).length = 8 := by
    rw [headerBody_single_length]
  have henc : encodePayload [(s, 1, 0)] (List.replicate k s)
      = some (List.replicate ((k + 7) / 8) 0) := by
    unfold encodePayload
    rw [mapM_lookup_replicate]
    rw [show (some (List.replicate k ((s, 1, 0) : CodeEntry))).map
          (fun es => packBits (es.flatMap codeBits))
        = some (packBits ((List.replicate k ((s, 1, 0) : CodeEntry)).flatMap codeBits))
        from rfl]
    rw [flatMap_codeBits_replicate, packBits_replicate_false]
  have h2pow : (256 : ℕ) ^ 4 = 2 ^ 32 := by norm_num
  have hwok : headerWriteOk [(s, 1, 0)] k := by
    refine ⟨by omega, by norm_num, ?_, ?_⟩
    · rw [hblen]
      norm_num
    · intro e he
      rw [List.mem_singleton] at he
      subst he
      refine ⟨hs, by norm_num, by norm_num⟩
  have hfil : ([(s, p)] : List (ℕ × ℚ)).filter (fun sp => 0 < sp.2) = [(s, p)] := by
    simp [List.filter, hp]
  have hrep_ne : List.replicate k s ≠ [] := by
    intro hc
    have hc' := congrArg List.length hc
    simp at hc'
    omega
  have henc' : encodePayload (forceDegenerate (from_frequencies [(s, p)]))
      (List.replicate k s) = some (List.replicate ((k + 7) / 8) 0) := by
    rw [hforce]
    exact henc
  have hwok' : headerWriteOk (forceDegenerate (from_frequencies [(s, p)]))
      (List.replicate k s).length := by
    rw [hforce, List.length_replicate]
    exact hwok
  have hmain := sourceEncode_ok [(s, p)] (List.replicate k s)
      (List.replicate ((k + 7) / 8) 0) hfil (by simp) hrep_ne henc' hwok'
  rw [hmain, hforce, List.length_replicate, hblen]

theorem decode_single (s k : ℕ) (hk32 : k < 2 ^ 32) (payload : List ℕ) :
    sourceDecode (leBytes 2 10 ++ headerBody [(s, 1, 0)] k ++ payload)
      = .ok (List.replicate k s) := by
  have h2pow : (256 : ℕ) ^ 4 = 2 ^ 32 := by norm_num
  have hblen : (headerBody [(s, 1, 0)] k).length = 8 := by
    rw [headerBody_single_length]
  have hparse := sourceDecode_parse [(s, 1, 0)] k payload
      (by rw [show sortBySym [((s : ℕ), 1, 0)] = [(s, 1, 0)] from rfl]; simp)
      (by
        intro e he
        rw [show sortBySym [((s : ℕ), 1, 0)] = [(s, 1, 0)] from rfl,
          List.mem_singleton] at he
        subst he
        norm_num)
      (by simp) (by omega)
      (by rw [hblen]; norm_num)
  have h10 : (headerBody [(s, 1, 0)] k).length + 2 = 10 := by
    rw [hblen]
  rw [h10] at hparse
  rw [hparse]
  rfl

theorem roundtrip_multi (pmf : List (ℕ × ℚ)) (m : List ℕ)
    (hm_ne : m ≠ []) (hm_len : m.length < 2 ^ 32) (hm_bytes : ∀ b ∈ m, b < 256)
    (hnd : (pmf.map Prod.fst).Nodup)
    (hpos : ∀ sp ∈ pmf, 0 < sp.2)
    (hexact : ∀ s, s ∈ pmf.map Prod.fst ↔ s ∈ m)
    (h2 : 2 ≤ pmf.length) :
    ∃ blob, sourceEncode pmf m = .ok blob ∧ sourceDecode blob = .ok m := by
  have hpne : pmf ≠ [] := by
    intro hc
    subst hc
    simp at h2
  obtain ⟨hinv, hperm⟩ := from_frequencies_good pmf hpne
  obtain ⟨htne, hbd, hpw⟩ := hinv
  have hbits1 := from_frequencies_bits_pos pmf h2
  have htlen : (from_frequencies pmf).length = pmf.length := by
    have h := hperm.length_eq
    simpa using h
  have hforce : forceDegenerate (from_frequencies pmf) = from_frequencies pmf :=
    forceDegenerate_of_ne_one _ (by omega)
  have hkeys_lt : ∀ x ∈ (from_frequencies pmf).map (fun e => e.1), x < 256 := by
    intro x hx
    exact hm_bytes x ((hexact x).mp (hperm.mem_iff.mp hx))
  have hnd_ct : ((from_frequencies pmf).map (fun e => e.1)).Nodup :=
    hperm.nodup_iff.mpr hnd
  have hle256 : (from_frequencies pmf).length ≤ 256 := by
    have h := nodup_lt_length_le _ hnd_ct hkeys_lt
    simpa using h
  have hbits_lt : ∀ e ∈ from_frequencies pmf, e.2.1 < 256 := by
    intro e he
    have h := (hbd e he).2
    omega
  have hcov : ∀ s ∈ m, ∃ e ∈ from_frequencies pmf, e.1 = s := by
    intro s hs
    have h1 : s ∈ pmf.map Prod.fst := (hexact s).mpr hs
    have h2' : s ∈ (from_frequencies pmf).map (fun e => e.1) := hperm.mem_iff.mpr h1
    obtain ⟨e, he, hes⟩ := List.mem_map.mp h2'
    exact ⟨e, he, hes⟩
  obtain ⟨es, hes⟩ := mapM_lookup_isSome (from_frequencies pmf) m hcov
  obtain ⟨hmap, hmem⟩ := mapM_lookup (from_frequencies pmf) m es hes
  have henc : encodePayload (from_frequencies pmf) m
      = some (packBits (es.flatMap codeBits)) := by
    unfold encodePayload
    rw [hes]
    rfl
  have h2pow : (256 : ℕ) ^ 4 = 2 ^ 32 := by norm_num
  have hsperm := sortBySym_perm (from_frequencies pmf)
  have hsorted_bits_lt : ∀ e ∈ sortBySym (from_frequencies pmf), e.2.1 < 256 :=
    fun e he => hbits_lt e (hsperm.mem_iff.mp he)
  have h2562 : (256 : ℕ) ^ 2 = 65536 := by norm_num
  have hhb_bound : (headerBody (from_frequencies pmf) m.length).length + 2 < 256 ^ 2 := by
    rw [headerBody_length, h2562]
    have hfl := flatMap_entryBytes_le _ hsorted_bits_lt
    rw [hsperm.length_eq] at hfl
    omega
  have hwok : headerWriteOk (from_frequencies pmf) m.length := by
    refine ⟨by omega, hle256, hhb_bound, ?_⟩
    intro e he
    exact ⟨hkeys_lt e.1 (List.mem_map.mpr ⟨e, he, rfl⟩), hbits_lt e he,
      val_fits _ _ (hbd e he).1⟩
  have hfil : pmf.filter (fun sp => 0 < sp.2) = pmf := by
    apply List.filter_eq_self.mpr
    intro sp hsp
    simpa using hpos sp hsp
  have hblob := sourceEncode_ok pmf m (packBits (es.flatMap codeBits)) hfil hpne hm_ne
      (by rw [hforce]; exact henc) (by rw [hforce]; exact hwok)
  rw [hforce] at hblob
  have hsorted_nodup : ((sortBySym (from_frequencies pmf)).map (fun e => e.1)).Nodup :=
    ((hsperm.map (fun e => e.1)).nodup_iff).mpr hnd_ct
  have hbounds256 : ∀ e ∈ sortBySym (from_frequencies pmf),
      e.2.2 < 256 ^ ((e.2.1 + 7) / 8) :=
    fun e he => val_fits _ _ (hbd e (hsperm.mem_iff.mp he)).1
  have hdec := sourceDecode_parse (from_frequencies pmf) m.length
      (packBits (es.flatMap codeBits)) hsorted_nodup hbounds256 htne (by omega) hhb_bound
  have hslen : (sortBySym (from_frequencies pmf)).length = pmf.length := by
    rw [hsperm.length_eq, htlen]
  have hpf_sorted : PrefixFreeTable (sortBySym (from_frequencies pmf)) :=
    (hsperm.pairwise_iff (fun hab => ⟨hab.2, hab.1⟩)).mpr hpw
  have hconds : ∀ e ∈ es, e ∈ sortBySym (from_frequencies pmf) ∧
      e.2.2 < 2 ^ e.2.1 ∧ 1 ≤ e.2.1 := by
    intro e he
    have hm' := hmem e he
    exact ⟨hsperm.mem_iff.mpr hm', (hbd e hm').1, hbits1 e hm'⟩
  have htake : ((decodeGreedy (sortBySym (from_frequencies pmf))
      (unpackBytes (packBits (es.flatMap codeBits))) 0 0).take m.length) = m := by
    rw [unpack_packBits, decodeGreedy_entries _ hpf_sorted es _ hconds, hmap]
    exact take_append_exact m _ m.length rfl
  refine ⟨_, hblob, ?_⟩
  rw [hdec]
  rcases hss : sortBySym (from_frequencies pmf) with _ | ⟨e1, tl⟩
  · rw [hss] at hslen
    simp at hslen
    omega
  rcases tl with _ | ⟨e2, rest⟩
  · rw [hss] at hslen
    simp at hslen
    omega
  rw [hss] at htake
  show Except.ok ((decodeGreedy (e1 :: e2 :: rest)
      (unpackBytes (packBits (es.flatMap codeBits))) 0 0).take m.length) = Except.ok m
  rw [htake]

/-- Counterexample to claim C6: this 10-byte blob declares a header length of
100 — exceeding its total length — yet the decoder does not reject it: the
Python slices are merely short, and the degenerate single-symbol path
decodes it successfully to two bytes. -/
theorem header_length_not_checked :
    fromLE (([100, 0, 0, 2, 0, 0, 0, 65, 1, 0] : List ℕ).take 2) = 100 ∧
    ([100, 0, 0, 2, 0, 0, 0, 65, 1, 0] : List ℕ).length = 10 ∧
    ¬ (100 : ℕ) ≤ 10 ∧
    sourceDecode [100, 0, 0, 2, 0, 0, 0, 65, 1, 0] = .ok [65, 65] := by
  refine ⟨rfl, rfl, by omega, ?_⟩
  rfl

/-- Amended claim C6: the blob decoder rejects any input of fewer than
6 bytes with an error before any decoding is attempted, but the 2-byte
header-length field is never validated against the blob's total length — a
blob whose header-length field exceeds its length can still be decoded. -/
theorem decoder_fail_fast (data : List ℕ) (hshort : data.length < 6) :
    sourceDecode data = .error "Error: File too short" ∧
    ∃ bad : List ℕ, 6 ≤ bad.length ∧ bad.length < fromLE (bad.take 2) ∧
      ∃ out, sourceDecode bad = .ok out := by
  constructor
  · unfold sourceDecode
    rw [if_pos hshort]
  · exact ⟨[100, 0, 0, 2, 0, 0, 0, 65, 1, 0], by norm_num, by norm_num [fromLE],
      ⟨[65, 65], rfl⟩⟩

/-- Concrete instantiation of `decoder_fail_fast` at a 3-byte input. -/
theorem decoder_fail_fast_witness :
    sourceDecode [1, 2, 3] = .error "Error: File too short" ∧
    ∃ bad : List ℕ, 6 ≤ bad.length ∧ bad.length < fromLE (bad.take 2) ∧
      ∃ out, sourceDecode bad = .ok out :=
  decoder_fail_fast [1, 2, 3] (by norm_num)

/-- Claim C1 (source-coder round-trip): for every non-empty byte message `m`
whose length fits the 4-byte header field, and every PMF table (distinct
symbols) assigning positive probability to exactly the symbols occurring in
`m`, encoding succeeds and decoding the emitted blob returns exactly `m`. -/
theorem source_coder_roundtrip (pmf : List (ℕ × ℚ)) (m : List ℕ)
    (hm_ne : m ≠ []) (hm_len : m.length < 2 ^ 32) (hm_bytes : ∀ b ∈ m, b < 256)
    (hnd : (pmf.map Prod.fst).Nodup)
    (hpos : ∀ sp ∈ pmf, 0 < sp.2)
    (hexact : ∀ s, s ∈ pmf.map Prod.fst ↔ s ∈ m) :
    ∃ blob, sourceEncode pmf m = .ok blob ∧ sourceDecode blob = .ok m := by
  rcases pmf with _ | ⟨⟨s, p⟩, prest⟩
  · exfalso
    rcases m with _ | ⟨b, mrest⟩
    · exact hm_ne rfl
    · have hb := (hexact b).mpr (by simp)
      simp at hb
  rcases prest with _ | ⟨sp2, prest2⟩
  · have hms : ∀ b ∈ m, b = s := by
      intro b hb
      have h := (hexact b).mpr hb
      simpa using h
    have hrep : m = List.replicate m.length s := by
      rw [List.eq_replicate_iff]
      exact ⟨rfl, hms⟩
    have hs256 : s < 256 := by
      have hsm : s ∈ m := (hexact s).mp (by simp)
      exact hm_bytes s hsm
    have hp_pos : 0 < p := by simpa using hpos (s, p) (by simp)
    have hk : 0 < m.length := List.length_pos.mpr hm_ne
    refine ⟨leBytes 2 10 ++ headerBody [(s, 1, 0)] m.length
        ++ List.replicate ((m.length + 7) / 8) 0, ?_, ?_⟩
    · conv_lhs => rw [hrep]
      exact encode_single s m.length p hs256 hp_pos hk hm_len
    · rw [decode_single s m.length hm_len]
      exact congrArg Except.ok hrep.symm
  · refine roundtrip_multi ((s, p) :: sp2 :: prest2) m hm_ne hm_len hm_bytes hnd hpos
      hexact (by simp)

/-- Concrete instantiation of `source_coder_roundtrip`: the fair two-symbol
source on the message `[0, 1]`. -/
theorem source_coder_roundtrip_witness :
    ∃ blob, sourceEncode [(0, (1 : ℚ) / 2), (1, (1 : ℚ) / 2)] [0, 1] = .ok blob ∧
      sourceDecode blob = .ok [0, 1] :=
  source_coder_roundtrip [(0, (1 : ℚ) / 2), (1, (1 : ℚ) / 2)] [0, 1]
    (by decide) (by norm_num) (by decide) (by decide)
    (by
      intro sp hsp
      rcases List.mem_cons.mp hsp with h | h
      · rw [h]
        norm_num
      · rw [List.mem_singleton.mp h]
        norm_num)
    (fun _ => Iff.rfl)

/-- Claim C2 (degenerate source): when exactly one symbol `s` has positive
probability, the encoder forces the code `(1, 0)` for `s` before writing the
blob; the emitted blob's header records code length 1 (value 0) for `s`, and
the packed payload carries at least one bit per encoded symbol. -/
theorem degenerate_encoder (s k : ℕ) (p : ℚ) (hs : s < 256) (hp : 0 < p)
    (hk : 0 < k) (hk32 : k < 2 ^ 32) :
    forceDegenerate (from_frequencies [(s, p)]) = [(s, 1, 0)] ∧
    sourceEncode [(s, p)] (List.replicate k s)
      = .ok ([10, 0, 0] ++ leBytes 4 k ++ [s, 1, 0]
          ++ List.replicate ((k + 7) / 8) 0) ∧
    k ≤ 8 * (List.replicate ((k + 7) / 8) (0 : ℕ)).length := by
  have hhb : headerBody [((s : ℕ), 1, 0)] k = 0 :: (leBytes 4 k ++ [s, 1, 0]) := by
    unfold headerBody
    rw [show sortBySym [((s : ℕ), 1, 0)] = [(s, 1, 0)] from rfl]
    rw [show ([((s : ℕ), 1, 0)] : List CodeEntry).flatMap entryBytes
          = entryBytes (s, 1, 0) ++ [] from rfl]
    rw [List.append_nil]
    simp [entryBytes, leBytes]
  refine ⟨rfl, ?_, ?_⟩
  · rw [encode_single s k p hs hp hk hk32]
    congr 1
    rw [hhb, show leBytes 2 10 = ([10, 0] : List ℕ) from by decide]
    simp [List.append_assoc]
  · rw [List.length_replicate]
    omega

/-- Concrete instantiation of `degenerate_encoder` at symbol 65 with three
message bytes. -/
theorem degenerate_encoder_witness :
    forceDegenerate (from_frequencies [(65, (1 : ℚ))]) = [(65, 1, 0)] ∧
    sourceEncode [(65, (1 : ℚ))] (List.replicate 3 65)
      = .ok ([10, 0, 0] ++ leBytes 4 3 ++ [65, 1, 0]
          ++ List.replicate ((3 + 7) / 8) 0) ∧
    3 ≤ 8 * (List.replicate ((3 + 7) / 8) (0 : ℕ)).length :=
  degenerate_encoder 65 3 1 (by norm_num) (by norm_num) (by norm_num) (by norm_num)

theorem forceDegenerate_keys (ct : List CodeEntry) :
    (forceDegenerate ct).map (fun e => e.1) = ct.map (fun e => e.1) := by
  match ct with
  | [] => rfl
  | [(s, b, v)] =>
      show (if b = 0 then [((s : ℕ), 1, 0)] else [(s, b, v)]).map (fun e => e.1) = _
      split <;> rfl
  | e1 :: e2 :: rest => rfl


theorem blob_layout_gen (T : List CodeEntry) (olen : ℕ) (payload : List ℕ)
    (hnd_T : (T.map (fun e => e.1)).Nodup)
    (hHlt : (headerBody T olen).length + 2 < 256 ^ 2) :
    ∃ ct : List CodeEntry,
      ct.Pairwise (fun a b => a.1 < b.1) ∧
      (∀ e ∈ ct, entryBytes e = e.1 :: e.2.1 :: leBytes ((e.2.1 + 7) / 8) e.2.2) ∧
      (leBytes 2 ((headerBody T olen).length + 2) ++ headerBody T olen ++ payload)
        = leBytes 2 ((ct.flatMap entryBytes).length + 7)
          ++ ((ct.length - 1) :: (leBytes 4 olen ++ ct.flatMap entryBytes))
          ++ payload ∧
      fromLE ((leBytes 2 ((headerBody T olen).length + 2) ++ headerBody T olen
          ++ payload).take 2)
        = (leBytes 2 ((headerBody T olen).length + 2) ++ headerBody T olen
            ++ payload).length - payload.length ∧
      (leBytes 2 ((headerBody T olen).length + 2) ++ headerBody T olen
          ++ payload).drop (fromLE ((leBytes 2 ((headerBody T olen).length + 2)
            ++ headerBody T olen ++ payload).take 2)) = payload := by
  have hnd_sorted : ((sortBySym T).map (fun e => e.1)).Nodup :=
    (((sortBySym_perm T).map (fun e => e.1)).nodup_iff).mpr hnd_T
  have hslen : (sortBySym T).length = T.length := (sortBySym_perm T).length_eq
  have hbody : headerBody T olen
      = ((sortBySym T).length - 1)
        :: (leBytes 4 olen ++ (sortBySym T).flatMap entryBytes) := by
    unfold headerBody
    rw [hslen]
  have hH : (headerBody T olen).length + 2
      = ((sortBySym T).flatMap entryBytes).length + 7 := by
    rw [headerBody_length]
    omega
  have hlen2 : (leBytes 2 ((headerBody T olen).length + 2)).length = 2 :=
    leBytes_length 2 _
  have htake2 : (leBytes 2 ((headerBody T olen).length + 2) ++ headerBody T olen
      ++ payload).take 2 = leBytes 2 ((headerBody T olen).length + 2) := by
    rw [List.append_assoc]
    exact take_append_exact _ _ 2 hlen2.symm
  have hfrom : fromLE ((leBytes 2 ((headerBody T olen).length + 2) ++ headerBody T olen
      ++ payload).take 2) = (headerBody T olen).length + 2 := by
    rw [htake2]
    exact fromLE_leBytes 2 _ hHlt
  have hlenfull : (leBytes 2 ((headerBody T olen).length + 2)
      ++ headerBody T olen).length = (headerBody T olen).length + 2 := by
    rw [List.length_append, hlen2]
    omega
  refine ⟨sortBySym T, sortBySym_strict T hnd_sorted, fun e _ => rfl, ?_, ?_, ?_⟩
  · rw [← hH, ← hbody]
  · rw [hfrom, List.length_append, List.length_append, hlen2]
    omega
  · rw [hfrom]
    exact drop_append_exact _ _ _ hlenfull.symm

/-- Claim C3 (blob layout): every blob emitted by the source encoder consists
of a 2-byte little-endian total header size, an `(entry count − 1)` byte,
the 4-byte little-endian original message length, then one record per symbol
in strictly ascending symbol order — symbol byte, bit-length byte, and
`⌈bits/8⌉` little-endian code-value bytes (`entryBytes`) — followed by the
packed payload, which starts exactly at the offset named by the header-size
field. -/
theorem blob_layout (pmf : List (ℕ × ℚ)) (m : List ℕ) (blob : List ℕ)
    (hnd : (pmf.map Prod.fst).Nodup)
    (henc : sourceEncode pmf m = .ok blob) :
    ∃ (ct : List CodeEntry) (payload : List ℕ),
      ct.Pairwise (fun a b => a.1 < b.1) ∧
      (∀ e ∈ ct, entryBytes e = e.1 :: e.2.1 :: leBytes ((e.2.1 + 7) / 8) e.2.2) ∧
      blob = leBytes 2 ((ct.flatMap entryBytes).length + 7)
          ++ ((ct.length - 1) :: (leBytes 4 m.length ++ ct.flatMap entryBytes))
          ++ payload ∧
      fromLE (blob.take 2) = blob.length - payload.length ∧
      blob.drop (fromLE (blob.take 2)) = payload := by
  unfold sourceEncode at henc
  by_cases hfil : pmf.filter (fun sp => 0 < sp.2) = []
  · rw [if_pos hfil] at henc
    exact absurd henc (by simp)
  rw [if_neg hfil] at henc
  by_cases hmne : m = []
  · rw [if_pos hmne] at henc
    exact absurd henc (by simp)
  rw [if_neg hmne] at henc
  cases hpay : encodePayload (forceDegenerate (from_frequencies
      (pmf.filter (fun sp => 0 < sp.2)))) m with
  | none =>
      rw [hpay] at henc
      exact absurd henc (by simp)
  | some payload =>
      rw [hpay] at henc
      dsimp only at henc
      by_cases hwok : headerWriteOk (forceDegenerate (from_frequencies
          (pmf.filter (fun sp => 0 < sp.2)))) m.length
      case neg =>
        rw [if_neg hwok] at henc
        exact absurd henc (by simp)
      case pos =>
        rw [if_pos hwok, Except.ok.injEq] at henc
        subst henc
        obtain ⟨_, hperm⟩ := from_frequencies_good (pmf.filter (fun sp => 0 < sp.2)) hfil
        have hnd_fil : ((pmf.filter (fun sp => 0 < sp.2)).map Prod.fst).Nodup :=
          ((List.filter_sublist pmf).map Prod.fst).nodup hnd
        have hnd_forced : ((forceDegenerate (from_frequencies
            (pmf.filter (fun sp => 0 < sp.2)))).map (fun e => e.1)).Nodup := by
          rw [forceDegenerate_keys]
          exact hperm.nodup_iff.mpr hnd_fil
        obtain ⟨ct, h1, h2, h3, h4, h5⟩ := blob_layout_gen
          (forceDegenerate (from_frequencies (pmf.filter (fun sp => 0 < sp.2))))
          m.length payload hnd_forced hwok.2.2.1
        exact ⟨ct, payload, h1, h2, h3, h4, h5⟩

/-- Concrete instantiation of `blob_layout` on the degenerate one-symbol
source: the layout facts for the blob of three `'A'` bytes. -/
theorem blob_layout_witness :
    ∃ (ct : List CodeEntry) (payload : List ℕ),
      ct.Pairwise (fun a b => a.1 < b.1) ∧
      (∀ e ∈ ct, entryBytes e = e.1 :: e.2.1 :: leBytes ((e.2.1 + 7) / 8) e.2.2) ∧
      [10, 0, 0, 3, 0, 0, 0, 65, 1, 0, 0]
        = leBytes 2 ((ct.flatMap entryBytes).length + 7)
          ++ ((ct.length - 1) :: (leBytes 4 ([65, 65, 65] : List ℕ).length
              ++ ct.flatMap entryBytes))
          ++ payload ∧
      fromLE (([10, 0, 0, 3, 0, 0, 0, 65, 1, 0, 0] : List ℕ).take 2)
        = ([10, 0, 0, 3, 0, 0, 0, 65, 1, 0, 0] : List ℕ).length - payload.length ∧
      ([10, 0, 0, 3, 0, 0, 0, 65, 1, 0, 0] : List ℕ).drop
          (fromLE (([10, 0, 0, 3, 0, 0, 0, 65, 1, 0, 0] : List ℕ).take 2)) = payload :=
  blob_layout [(65, (1 : ℚ))] [65, 65, 65] [10, 0, 0, 3, 0, 0, 0, 65, 1, 0, 0]
    (by decide) (by rfl)
